import Mathlib

/-!
# 2D feature tracking: ratio filter, Harris suppression scan and frame buffer

A shallow embedding of the hand-written parts of
`src/matching2D_Student.cpp` (`matchDescriptors`, `detKeypointsHarris`) and of
`src/MidTermProject_Camera_Student.cpp` (the loop of `main`), followed by the
properties established about them.

Modelling conventions.

* `float` and `double` values are exact rationals (`ℚ`); the literal `0.8` is `4/5`.
  Rounding is not modelled.
* `static_cast<int>` of a `float` truncates toward zero (`staticCastInt`).
* `operator[]` on a `std::vector` outside its bounds and `erase(begin())` on an empty
  vector have no defined result in C++: the embedding returns `none` there.
* OpenCV itself (detectors, descriptor extractors, matchers, `cv::KeyPoint::overlap`)
  is not part of the repository: these enter as parameters.
-/

namespace Tracking2D

/-! ## Data model -/

/-- Record `cv::DMatch`. -/
structure DMatch where
  queryIdx : Int
  trainIdx : Int
  imgIdx : Int
  distance : ℚ
deriving DecidableEq

/-- Record `cv::Point2f`. -/
structure Point2f where
  x : ℚ
  y : ℚ
deriving DecidableEq

/-- Record `cv::KeyPoint`; a default-constructed one has `angle = -1`, `octave = 0`. -/
structure KeyPoint where
  pt : Point2f
  size : ℚ
  angle : ℚ
  response : ℚ
  octave : Int
  class_id : Int
deriving DecidableEq

/-- A single-channel `cv::Mat` of floats, read through `at<float>(i, j)`. -/
structure Mat where
  rows : Nat
  cols : Nat
  atFloat : Nat → Nat → ℚ

/-- Record `DataFrame` of `dataStructures.h`, as `main` uses it. -/
structure DataFrame (Img Desc : Type) where
  cameraImg : Img
  keypoints : List KeyPoint
  descriptors : List Desc
  kptMatches : List DMatch

/-- The two selector strings `matchDescriptors` acts on. -/
inductive SelectorType where
  | SEL_NN
  | SEL_KNN
deriving DecidableEq

/-- The two calls made on a `cv::DescriptorMatcher`: `match` (here `matchNN`) and
`knnMatch`. -/
structure DescriptorMatcher (Desc : Type) where
  matchNN : List Desc → List Desc → List DMatch
  knnMatch : List Desc → List Desc → Nat → List (List DMatch)

/-! ## `matchDescriptors` -/

/-- Constant `minDescDistRatio = 0.8` of `matchDescriptors`. -/
def minDescDistRatio : ℚ := 4 / 5

/-- The loop of lines 53-55 of `matching2D_Student.cpp`:
`if ((*it)[0].distance < minDescDistRatio * (*it)[1].distance) matches.push_back((*it)[0])`.
Reading `(*it)[0]` or `(*it)[1]` from an entry that lacks it gives `none`. -/
def ratioLoop (ratio : ℚ) : List (List DMatch) → List DMatch → Option (List DMatch)
  | [], matches0 => some matches0
  | it :: rest, matches0 =>
    match it[0]?, it[1]? with
    | some m0, some m1 =>
      if m0.distance < ratio * m1.distance then
        ratioLoop ratio rest (matches0 ++ [m0])
      else
        ratioLoop ratio rest matches0
    | _, _ => none

/-- Conversion of a `size_t` to `int` (two's complement, 32 bits). -/
def toInt32 (n : Nat) : Int := ((n : Int) + 2 ^ 31) % 2 ^ 32 - 2 ^ 31

/-- Function `matchDescriptors`: returns the updated `matches` vector and the value of
`no_matched_points`. The matcher object built from `descriptorType` and `matcherType`
is the parameter `matcher`; the two keypoint vectors are not read by the code. -/
def matchDescriptors {Desc : Type} (matcher : DescriptorMatcher Desc)
    (_kPtsSource _kPtsRef : List KeyPoint) (descSource descRef : List Desc)
    (matches0 : List DMatch) (selectorType : SelectorType) : Option (List DMatch × Int) :=
  match selectorType with
  | SelectorType.SEL_NN =>
    let matches1 := matcher.matchNN descSource descRef
    some (matches1, toInt32 matches1.length)
  | SelectorType.SEL_KNN =>
    let knn_matches := matcher.knnMatch descSource descRef 2
    match ratioLoop minDescDistRatio knn_matches matches0 with
    | some matches1 => some (matches1, toInt32 matches1.length)
    | none => none

/-! ## `detKeypointsHarris` -/

/-- Truncation toward zero, as `static_cast<int>` does on a `float`. -/
def staticCastInt (v : ℚ) : Int := if 0 ≤ v then ⌊v⌋ else -⌊-v⌋

/-- Constant `minResponse = 100`. -/
def minResponse : Int := 100

/-- Constant `apertureSize = 3`. -/
def apertureSize : Int := 3

/-- Constant `scaledApertureSize = apertureSize * 2`. -/
def scaledApertureSize : Int := apertureSize * 2

/-- Constant `maxOverlap = 0.0`. -/
def maxOverlap : ℚ := 0

/-- The candidate built at lines 169-173 for cell `(i, j)` with integer response
`response`. -/
def newKeypointAt (aperture : Int) (i j : Nat) (response : Int) : KeyPoint :=
  { pt := ⟨(j : ℚ), (i : ℚ)⟩, size := (aperture : ℚ), angle := -1,
    response := (response : ℚ), octave := 0, class_id := 0 }

/-- The loop of lines 177-188 over the current keypoints: returns the updated vector and
the final value of `newKeypointProcessed`, given its value on entry. -/
def overlapLoop (overlap : KeyPoint → KeyPoint → ℚ) (maxOv : ℚ) (newKeypoint : KeyPoint) :
    List KeyPoint → Bool → List KeyPoint × Bool
  | [], processed => ([], processed)
  | it :: rest, processed =>
    if overlap newKeypoint it > maxOv then
      let it1 := if newKeypoint.response > it.response then newKeypoint else it
      let r := overlapLoop overlap maxOv newKeypoint rest true
      (it1 :: r.1, r.2)
    else
      let r := overlapLoop overlap maxOv newKeypoint rest processed
      (it :: r.1, r.2)

/-- Lines 175-191: the flag is reset, the loop runs, and the candidate is appended when
the flag is still unset. -/
def suppressStep (overlap : KeyPoint → KeyPoint → ℚ) (maxOv : ℚ) (newKeypoint : KeyPoint)
    (keypoints : List KeyPoint) : List KeyPoint :=
  let r := overlapLoop overlap maxOv newKeypoint keypoints false
  if !r.2 then r.1 ++ [newKeypoint] else r.1

/-- Body of the two loops (lines 166-192) at cell `(i, j)`. -/
def scanCell (overlap : KeyPoint → KeyPoint → ℚ) (maxOv : ℚ) (minResp aperture : Int)
    (dstNorm : Mat) (i j : Nat) (keypoints : List KeyPoint) : List KeyPoint :=
  let response := staticCastInt (dstNorm.atFloat i j)
  if staticCastInt (dstNorm.atFloat i j) > minResp then
    suppressStep overlap maxOv (newKeypointAt aperture i j response) keypoints
  else
    keypoints

/-- The scan of lines 163-195: rows in ascending order, columns in ascending order
within a row. -/
def harrisScan (overlap : KeyPoint → KeyPoint → ℚ) (maxOv : ℚ) (minResp aperture : Int)
    (dstNorm : Mat) (keypoints : List KeyPoint) : List KeyPoint :=
  (List.range dstNorm.rows).foldl
    (fun kps i =>
      (List.range dstNorm.cols).foldl
        (fun kps1 j => scanCell overlap maxOv minResp aperture dstNorm i j kps1) kps)
    keypoints

/-- The scan with the constants of `detKeypointsHarris`. -/
def detKeypointsHarris (overlap : KeyPoint → KeyPoint → ℚ) (dstNorm : Mat)
    (keypoints : List KeyPoint) : List KeyPoint :=
  harrisScan overlap maxOverlap minResponse scaledApertureSize dstNorm keypoints

/-- Whether `cv::KeyPoint::overlap` is positive. OpenCV returns the ratio of the
intersection area to the union area of the two discs of diameter `size`; for positive
sizes that ratio is positive exactly when the centres are closer than the sum of the
radii. -/
def discsIntersect (kp1 kp2 : KeyPoint) : Bool :=
  decide ((kp1.pt.x - kp2.pt.x) ^ 2 + (kp1.pt.y - kp2.pt.y) ^ 2
    < (kp1.size / 2 + kp2.size / 2) ^ 2)

/-- Sign of `cv::KeyPoint::overlap`: `1` when the two discs intersect, `0` when not.
Compared with `maxOverlap = 0.0` it decides as the library value does. -/
def overlapSign (kp1 kp2 : KeyPoint) : ℚ := if discsIntersect kp1 kp2 then 1 else 0

/-- A matrix given by its rows; cells outside the rows read `0`. -/
def Mat.ofRows (cells : List (List ℚ)) : Mat :=
  { rows := cells.length
    cols := (cells.headD []).length
    atFloat := fun i j => (cells.getD i []).getD j 0 }

/-- The response map of a keypoint list: the response of a keypoint of the list at its
location, zero elsewhere. -/
def responseMapOf (rows cols : Nat) (kps : List KeyPoint) : Mat :=
  { rows := rows
    cols := cols
    atFloat := fun i j =>
      match kps.find? (fun kp => decide (kp.pt.x = (j : ℚ) ∧ kp.pt.y = (i : ℚ))) with
      | some kp => kp.response
      | none => 0 }

/-! ## The frame buffer and the loop of `main` -/

/-- Lines 107-113 of `MidTermProject_Camera_Student.cpp`: when the buffer holds
`dataBufferSize` frames its first element is erased, then the frame is appended. -/
def ringPush {α : Type} (dataBufferSize : Nat) (dataBuffer : List α) (frame : α) :
    Option (List α) :=
  if dataBuffer.length = dataBufferSize then
    match dataBuffer with
    | [] => none
    | _ :: rest => some (rest ++ [frame])
  else
    some (dataBuffer ++ [frame])

/-- Pushing a sequence of frames one by one. -/
def ringPushAll {α : Type} (dataBufferSize : Nat) (dataBuffer : List α) (frames : List α) :
    Option (List α) :=
  frames.foldlM (ringPush dataBufferSize) dataBuffer

/-- Element `dataBuffer.end() - 1`. -/
def current {α : Type} (dataBuffer : List α) : Option α :=
  dataBuffer[dataBuffer.length - 1]?

/-- Element `dataBuffer.end() - 2`; there is none in a buffer of fewer than two
frames. -/
def previous {α : Type} (dataBuffer : List α) : Option α :=
  if 2 ≤ dataBuffer.length then dataBuffer[dataBuffer.length - 2]? else none

/-- Assignment through `dataBuffer.end() - 1`. -/
def setCurrent {α : Type} (f : α → α) : List α → List α
  | [] => []
  | [a] => [f a]
  | a :: b :: rest => a :: setCurrent f (b :: rest)

/-- The collaborators of `main` outside the repository: keypoint detection with the
region filter and the optional cap (lines 121-172), `descKeypoints`, and the matcher. -/
structure Backend (Img Desc : Type) where
  detect : Img → List KeyPoint
  descKeypoints : List KeyPoint → Img → List Desc
  matcher : DescriptorMatcher Desc

/-- The variables of `main` that live across iterations. -/
structure PipelineState (Img Desc : Type) where
  dataBuffer : List (DataFrame Img Desc)
  MatchedKeypoints : Int
  MatchedKeypoints_vector : List Int

/-- One iteration of the loop of `main` (lines 88-246) on image `imgGray`. -/
def processImage {Img Desc : Type} (B : Backend Img Desc) (dataBufferSize : Nat)
    (selectorType : SelectorType) (st : PipelineState Img Desc) (imgGray : Img) :
    Option (PipelineState Img Desc) :=
  match ringPush dataBufferSize st.dataBuffer
      { cameraImg := imgGray, keypoints := [], descriptors := [], kptMatches := [] } with
  | none => none
  | some buf1 =>
    let keypoints := B.detect imgGray
    let buf2 := setCurrent (fun f => { f with keypoints := keypoints }) buf1
    match current buf2 with
    | none => none
    | some cur =>
      let descriptors := B.descKeypoints cur.keypoints cur.cameraImg
      let buf3 := setCurrent (fun f => { f with descriptors := descriptors }) buf2
      let matched : Option (List (DataFrame Img Desc) × Int) :=
        if buf3.length > 1 then
          match previous buf3, current buf3 with
          | some prev, some cur1 =>
            match matchDescriptors B.matcher prev.keypoints cur1.keypoints
                prev.descriptors cur1.descriptors [] selectorType with
            | some (matches1, n) =>
              some (setCurrent (fun f => { f with kptMatches := matches1 }) buf3, n)
            | none => none
          | _, _ => none
        else
          some (buf3, st.MatchedKeypoints)
      match matched with
      | none => none
      | some (buf4, matchedKeypoints) =>
        some
          { dataBuffer := buf4
            MatchedKeypoints := matchedKeypoints
            MatchedKeypoints_vector :=
              if buf4.length ≤ 1 then st.MatchedKeypoints_vector ++ [0]
              else st.MatchedKeypoints_vector ++ [matchedKeypoints] }

/-- The loop of `main` over a sequence of images, from an empty buffer and an empty
metrics vector; `uninit` is the indeterminate initial value of `MatchedKeypoints`. -/
def runPipeline {Img Desc : Type} (B : Backend Img Desc) (dataBufferSize : Nat)
    (selectorType : SelectorType) (uninit : Int) (imgs : List Img) :
    Option (PipelineState Img Desc) :=
  imgs.foldlM (processImage B dataBufferSize selectorType)
    { dataBuffer := [], MatchedKeypoints := uninit, MatchedKeypoints_vector := [] }

/-- The ratio test on one k-NN entry as the specification words it: keep `best` iff
`best.distance < ratioThreshold * secondBest.distance`; nothing else is kept. -/
def keepBest (ratioThreshold : ℚ) : List DMatch → Option DMatch
  | best :: secondBest :: _ =>
    if best.distance < ratioThreshold * secondBest.distance then some best else none
  | _ => none

/-! ## Sample inputs -/

/-- A response map with three cells above the threshold: `150` at row 0, column 0,
`255` at row 0, column 7, and `170` at row 1, column 3. -/
def sampleMap : Mat :=
  Mat.ofRows [[150, 0, 0, 0, 0, 0, 0, 255], [0, 0, 0, 170, 0, 0, 0, 0]]

/-- A response map with `150` at row 0, column 0, `160` at row 0, column 7, and `255` at
row 1, column 3. -/
def sampleMapPeak : Mat :=
  Mat.ofRows [[150, 0, 0, 0, 0, 0, 0, 160], [0, 0, 0, 255, 0, 0, 0, 0]]

/-- The cells of a matrix in the order the two loops of `detKeypointsHarris` visit
them. -/
def rasterCells (dstNorm : Mat) : List (Nat × Nat) :=
  List.range dstNorm.rows ×ˢ List.range dstNorm.cols

/-- Two adjacent cells scoring `150` and `200`. -/
def adjacentLowHigh : Mat := Mat.ofRows [[150, 200]]

/-- Two adjacent cells scoring `200` and `150`. -/
def adjacentHighLow : Mat := Mat.ofRows [[200, 150]]

/-- Candidate of `sampleMap` at row 0, column 0. -/
def kpA : KeyPoint := newKeypointAt 6 0 0 150

/-- Candidate of `sampleMap` at row 0, column 7. -/
def kpB : KeyPoint := newKeypointAt 6 0 7 255

/-- Candidate of `sampleMap` at row 1, column 3. -/
def kpC : KeyPoint := newKeypointAt 6 1 3 170

/-- A keypoint away from the three above, at row 0, column 20. -/
def kpD : KeyPoint := newKeypointAt 6 0 20 120

/-- Candidate of `sampleMapPeak` at row 1, column 3. -/
def kpPeak : KeyPoint := newKeypointAt 6 1 3 255

/-- The matcher interface of section 6 of the specification: `matchNN` returns one
match per source descriptor; `knnMatch` with `k = 2` returns an outer list aligned to the
source descriptors whose inner lists hold exactly two neighbours. -/
def MatcherObeysInterface {Desc : Type} (m : DescriptorMatcher Desc) : Prop :=
  (∀ a b, (m.matchNN a b).length = a.length)
    ∧ ∀ a b, (m.knnMatch a b 2).length = a.length ∧ ∀ e ∈ m.knnMatch a b 2, e.length = 2

/-- The descriptor interface of section 6 of the specification: one descriptor per
keypoint. -/
def DescriptorsAligned {Img Desc : Type} (B : Backend Img Desc) : Prop :=
  ∀ kps img, (B.descKeypoints kps img).length = kps.length

/-- What holds of the state of `main` after the images `done` have been processed. -/
structure PipelineInv {Img Desc : Type} (B : Backend Img Desc) (cap : Nat)
    (st : PipelineState Img Desc) (done : List Img) : Prop where
  len_le : st.dataBuffer.length ≤ cap
  aligned : ∀ f ∈ st.dataBuffer, f.descriptors.length = f.keypoints.length
  empty : done = [] → st.dataBuffer = []
  last : ∀ d img, done = d ++ [img] →
    ∃ X f, st.dataBuffer = X ++ [f] ∧ f.keypoints = B.detect img
  vlen : st.MatchedKeypoints_vector.length = done.length
  first : ∀ c, st.MatchedKeypoints_vector[0]? = some c → c = 0
  bound : ∀ i c img, 1 ≤ i → st.MatchedKeypoints_vector[i]? = some c →
    done[i - 1]? = some img → c ≤ ((B.detect img).length : Int)

/-- A backend on images that are just a number of keypoints: `detect n` yields `n`
keypoints, every keypoint gets one descriptor, and every source descriptor is matched to
reference descriptor `0` at distance `1` and to reference descriptor `1` at
distance `2`. -/
def sampleBackend : Backend Nat Unit :=
  { detect := fun n => (List.range n).map fun (j : Nat) => newKeypointAt 6 0 j 150
    descKeypoints := fun kps _ => kps.map fun _ => ()
    matcher :=
      { matchNN := fun a _ =>
          (List.range a.length).map fun (q : Nat) => DMatch.mk (q : Int) 0 0 1
        knnMatch := fun a _ _ =>
          (List.range a.length).map fun (q : Nat) =>
            [DMatch.mk (q : Int) 0 0 1, DMatch.mk (q : Int) 1 0 2] } }

/-- The candidate keypoints of the scan, in the order the scan builds them: one for each
cell, in raster order, that passes the test of line 168, built as at lines 169-173. -/
def candidates (minResp aperture : Int) (dstNorm : Mat) : List KeyPoint :=
  ((rasterCells dstNorm).filter fun c =>
      decide (minResp < staticCastInt (dstNorm.atFloat c.1 c.2))).map
    fun c => newKeypointAt aperture c.1 c.2 (staticCastInt (dstNorm.atFloat c.1 c.2))

/-- Row-major order on locations: an earlier row, or the same row and an earlier
column. -/
def rasterBefore (p q : Point2f) : Prop := p.y < q.y ∨ (p.y = q.y ∧ p.x < q.x)

/-- A single cell scoring `100.5`. -/
def scoreJustAbove : Mat := Mat.ofRows [[201 / 2]]

/-- A single cell scoring `150.75`. -/
def scoreFractional : Mat := Mat.ofRows [[603 / 4]]

/-- A map with the scores `100.5`, `101.25` in row 0 and `150`, `99` in row 1. -/
def scoreMixed : Mat := Mat.ofRows [[201 / 2, 405 / 4], [150, 99]]

/-- An overlap function under which no two keypoints overlap. -/
def overlapNone (_kp1 _kp2 : KeyPoint) : ℚ := 0

/-- Two adjacent cells scoring `150.25` and `150.75`. -/
def scoreCloseLowHigh : Mat := Mat.ofRows [[601 / 4, 603 / 4]]

/-- Two adjacent cells scoring `100.5` and `100.75`. -/
def scoreBarelyAbove : Mat := Mat.ofRows [[201 / 2, 403 / 4]]

/-! ## The ratio filter -/

theorem ratioLoop_eq_filterMap (ratio : ℚ) (knn : List (List DMatch))
    (h : ∀ e ∈ knn, 2 ≤ e.length) (ms : List DMatch) :
    ratioLoop ratio knn ms = some (ms ++ knn.filterMap (keepBest ratio)) := by
  induction knn generalizing ms with
  | nil => simp [ratioLoop]
  | cons e rest ih =>
    have hrest : ∀ e1 ∈ rest, 2 ≤ e1.length := fun e1 he1 => h e1 (List.mem_cons_of_mem _ he1)
    have he : 2 ≤ e.length := h e (List.mem_cons_self _ _)
    match e, he with
    | m0 :: m1 :: tl, _ =>
      by_cases hlt : m0.distance < ratio * m1.distance
      · simp [ratioLoop, keepBest, hlt, ih hrest]
      · simp [ratioLoop, keepBest, hlt, ih hrest]

theorem ratioLoop_none_of_short (ratio : ℚ) (knn : List (List DMatch))
    (h : ∃ e ∈ knn, e.length < 2) (ms : List DMatch) :
    ratioLoop ratio knn ms = none := by
  induction knn generalizing ms with
  | nil => simp at h
  | cons e rest ih =>
    match e, h with
    | [], _ => simp [ratioLoop]
    | [m0], _ => simp [ratioLoop]
    | m0 :: m1 :: tl, h =>
      have hrest : ∃ e1 ∈ rest, e1.length < 2 := by
        obtain ⟨e1, he1, hlen⟩ := h
        rcases List.mem_cons.mp he1 with heq | hmem
        · subst heq
          simp only [List.length_cons] at hlen
          omega
        · exact ⟨e1, hmem, hlen⟩
      by_cases hlt : m0.distance < ratio * m1.distance
      · simp [ratioLoop, hlt, ih hrest]
      · simp [ratioLoop, hlt, ih hrest]

theorem filterMap_keepBest_pairs (ratio : ℚ) (pairs : List (DMatch × DMatch)) :
    (pairs.map fun p => [p.1, p.2]).filterMap (keepBest ratio) =
      (pairs.filter fun p => decide (p.1.distance < ratio * p.2.distance)).map Prod.fst := by
  induction pairs with
  | nil => rfl
  | cons p rest ih =>
    by_cases hlt : p.1.distance < ratio * p.2.distance
    · simp [keepBest, hlt, ← ih]
    · simp [keepBest, hlt, ← ih]

/-- C1. With an empty `matches` vector on entry and a k-NN result whose entries are the
pairs `(best, secondBest)`, the `SEL_KNN` branch of `matchDescriptors` returns exactly
the `best` matches of the pairs with `best.distance < 0.8 * secondBest.distance`, in
the order of the input and unchanged, and counts them. -/
theorem matchDescriptors_knn_ratio_contract {Desc : Type} (matcher : DescriptorMatcher Desc)
    (kPtsSource kPtsRef : List KeyPoint) (descSource descRef : List Desc)
    (pairs : List (DMatch × DMatch))
    (hknn : matcher.knnMatch descSource descRef 2 = pairs.map fun p => [p.1, p.2]) :
    matchDescriptors matcher kPtsSource kPtsRef descSource descRef [] SelectorType.SEL_KNN =
      some ((pairs.filter fun p => decide (p.1.distance < 4 / 5 * p.2.distance)).map Prod.fst,
        toInt32 ((pairs.filter fun p =>
          decide (p.1.distance < 4 / 5 * p.2.distance)).map Prod.fst).length) := by
  have hlen : ∀ e ∈ pairs.map (fun p : DMatch × DMatch => [p.1, p.2]), 2 ≤ e.length := by
    intro e he
    obtain ⟨p, _, rfl⟩ := List.mem_map.mp he
    simp
  simp only [matchDescriptors, hknn, ratioLoop_eq_filterMap _ _ hlen, List.nil_append,
    filterMap_keepBest_pairs, minDescDistRatio]

/-- C1, on the numbers of the specification: the candidates `(10, 15)` and `(5, 9)` are
retained, `(12, 13)` is dropped, and the tie `(8, 10)`, where `8 = 0.8 * 10`, is
dropped. -/
theorem matchDescriptors_knn_ratio_contract_witness :
    matchDescriptors
        (⟨fun _ _ => [], fun _ _ _ =>
          [[⟨0, 3, 0, 10⟩, ⟨0, 4, 0, 15⟩], [⟨1, 7, 0, 5⟩, ⟨1, 2, 0, 9⟩],
           [⟨2, 1, 0, 12⟩, ⟨2, 5, 0, 13⟩], [⟨3, 6, 0, 8⟩, ⟨3, 0, 0, 10⟩]]⟩ :
          DescriptorMatcher Unit)
        [] [] [] [] [] SelectorType.SEL_KNN
      = some ([⟨0, 3, 0, 10⟩, ⟨1, 7, 0, 5⟩], 2) := by
  have h := matchDescriptors_knn_ratio_contract
    (⟨fun _ _ => [], fun _ _ _ =>
      [[⟨0, 3, 0, 10⟩, ⟨0, 4, 0, 15⟩], [⟨1, 7, 0, 5⟩, ⟨1, 2, 0, 9⟩],
       [⟨2, 1, 0, 12⟩, ⟨2, 5, 0, 13⟩], [⟨3, 6, 0, 8⟩, ⟨3, 0, 0, 10⟩]]⟩ :
      DescriptorMatcher Unit) [] [] [] []
    [(⟨0, 3, 0, 10⟩, ⟨0, 4, 0, 15⟩), (⟨1, 7, 0, 5⟩, ⟨1, 2, 0, 9⟩),
     (⟨2, 1, 0, 12⟩, ⟨2, 5, 0, 13⟩), (⟨3, 6, 0, 8⟩, ⟨3, 0, 0, 10⟩)] rfl
  rw [h]
  norm_num [List.filter, toInt32]

/-- C4 as stated fails: an entry with a single neighbour is not skipped, the loop
reads its missing second neighbour, so no match list is produced; the claim expects the
list holding the first entry's best match. -/
theorem short_entry_not_rejected :
    ratioLoop minDescDistRatio [[⟨0, 3, 0, 10⟩, ⟨0, 4, 0, 15⟩], [⟨1, 7, 0, 5⟩]] [] = none
      ∧ ratioLoop minDescDistRatio [[⟨0, 3, 0, 10⟩, ⟨0, 4, 0, 15⟩], [⟨1, 7, 0, 5⟩]] []
        ≠ some [⟨0, 3, 0, 10⟩]
      ∧ matchDescriptors
          (⟨fun _ _ => [], fun _ _ _ =>
            [[⟨0, 3, 0, 10⟩, ⟨0, 4, 0, 15⟩], [⟨1, 7, 0, 5⟩]]⟩ : DescriptorMatcher Unit)
          [] [] [] [] [] SelectorType.SEL_KNN = none := by
  have h : ratioLoop minDescDistRatio
      [[⟨0, 3, 0, 10⟩, ⟨0, 4, 0, 15⟩], [⟨1, 7, 0, 5⟩]] [] = none :=
    ratioLoop_none_of_short _ _ ⟨[⟨1, 7, 0, 5⟩], by simp, by simp⟩ _
  refine ⟨h, ?_, ?_⟩
  · rw [h]
    simp
  · simp only [matchDescriptors, h]

/-- C4, amended. The ratio loop has no guard for short entries: it produces a match list
exactly when every entry holds at least two neighbours, and then the list is the input
list followed by the `best` match of each entry that passes the ratio test on its first
two neighbours. -/
theorem ratio_filter_needs_two_neighbours (ratio : ℚ) (knn : List (List DMatch))
    (ms : List DMatch) :
    (ratioLoop ratio knn ms = none ↔ ∃ e ∈ knn, e.length < 2)
      ∧ ((∀ e ∈ knn, 2 ≤ e.length) →
          ratioLoop ratio knn ms = some (ms ++ knn.filterMap (keepBest ratio))) := by
  refine ⟨⟨?_, fun h => ratioLoop_none_of_short ratio knn h ms⟩,
    fun h => ratioLoop_eq_filterMap ratio knn h ms⟩
  intro hnone
  by_contra hall
  have hall1 : ∀ e ∈ knn, 2 ≤ e.length := by
    intro e he
    by_contra hlt
    exact hall ⟨e, he, by omega⟩
  rw [ratioLoop_eq_filterMap ratio knn hall1 ms] at hnone
  exact Option.noConfusion hnone

/-- C4, amended, on an instance: two entries of two and three neighbours are filtered
on their first two neighbours. -/
theorem ratio_filter_needs_two_neighbours_witness :
    ratioLoop (4 / 5)
        [[⟨0, 3, 0, 10⟩, ⟨0, 4, 0, 15⟩], [⟨1, 7, 0, 12⟩, ⟨1, 2, 0, 13⟩, ⟨1, 5, 0, 90⟩]] []
      = some [⟨0, 3, 0, 10⟩] := by
  have h := (ratio_filter_needs_two_neighbours (4 / 5)
    [[⟨0, 3, 0, 10⟩, ⟨0, 4, 0, 15⟩], [⟨1, 7, 0, 12⟩, ⟨1, 2, 0, 13⟩, ⟨1, 5, 0, 90⟩]] []).2
    (by simp)
  rw [h]
  norm_num [keepBest, List.filterMap]

theorem length_filterMap_keepBest_mono (t1 t2 : ℚ) (ht : t1 ≤ t2) (knn : List (List DMatch))
    (hnn : ∀ e ∈ knn, ∀ m ∈ e, 0 ≤ m.distance) :
    (knn.filterMap (keepBest t1)).length ≤ (knn.filterMap (keepBest t2)).length := by
  induction knn with
  | nil => simp
  | cons e rest ih =>
    have hrest := ih (fun e1 he1 => hnn e1 (List.mem_cons_of_mem _ he1))
    have he := hnn e (List.mem_cons_self _ _)
    match e, he with
    | [], _ => simpa [keepBest] using hrest
    | [m0], _ => simpa [keepBest] using hrest
    | m0 :: m1 :: tl, he =>
      have h1 : 0 ≤ m1.distance := he m1 (by simp)
      have hmul : t1 * m1.distance ≤ t2 * m1.distance :=
        mul_le_mul_of_nonneg_right ht h1
      by_cases hlt1 : m0.distance < t1 * m1.distance
      · have hlt2 : m0.distance < t2 * m1.distance := lt_of_lt_of_le hlt1 hmul
        simpa [keepBest, hlt1, hlt2] using hrest
      · by_cases hlt2 : m0.distance < t2 * m1.distance
        · simp only [List.filterMap_cons, keepBest, hlt1, hlt2, if_true, if_false,
            List.length_cons]
          omega
        · simpa [keepBest, hlt1, hlt2] using hrest

/-- C8. On a k-NN list whose entries hold two neighbours with non-negative distances,
the ratio loop run with thresholds `t1 ≤ t2` produces two match lists, the one for `t1`
no longer than the one for `t2`, and neither longer than the input list. -/
theorem ratio_filter_monotone (t1 t2 : ℚ) (ht : t1 ≤ t2) (knn : List (List DMatch))
    (htwo : ∀ e ∈ knn, e.length = 2) (hnn : ∀ e ∈ knn, ∀ m ∈ e, 0 ≤ m.distance) :
    ∃ out1 out2, ratioLoop t1 knn [] = some out1 ∧ ratioLoop t2 knn [] = some out2
      ∧ out1.length ≤ out2.length ∧ out2.length ≤ knn.length
      ∧ out1.length ≤ knn.length := by
  have hlen : ∀ e ∈ knn, 2 ≤ e.length := fun e he => le_of_eq (htwo e he).symm
  refine ⟨_, _, ratioLoop_eq_filterMap t1 knn hlen [], ratioLoop_eq_filterMap t2 knn hlen [],
    ?_, ?_, ?_⟩
  · simpa using length_filterMap_keepBest_mono t1 t2 ht knn hnn
  · simpa using List.length_filterMap_le (keepBest t2) knn
  · simpa using List.length_filterMap_le (keepBest t1) knn

/-- C8 on an instance: the thresholds `1/2 ≤ 4/5` on the pairs `(10, 15)`, `(5, 12)`,
`(12, 13)` keep one and two matches. -/
theorem ratio_filter_monotone_witness :
    (∃ out1 out2,
      ratioLoop (1 / 2) [[⟨0, 3, 0, 10⟩, ⟨0, 4, 0, 15⟩], [⟨1, 7, 0, 5⟩, ⟨1, 2, 0, 12⟩],
          [⟨2, 1, 0, 12⟩, ⟨2, 5, 0, 13⟩]] [] = some out1
      ∧ ratioLoop (4 / 5) [[⟨0, 3, 0, 10⟩, ⟨0, 4, 0, 15⟩], [⟨1, 7, 0, 5⟩, ⟨1, 2, 0, 12⟩],
          [⟨2, 1, 0, 12⟩, ⟨2, 5, 0, 13⟩]] [] = some out2
      ∧ out1.length ≤ out2.length
      ∧ out2.length ≤ [[(⟨0, 3, 0, 10⟩ : DMatch), ⟨0, 4, 0, 15⟩],
          [⟨1, 7, 0, 5⟩, ⟨1, 2, 0, 12⟩], [⟨2, 1, 0, 12⟩, ⟨2, 5, 0, 13⟩]].length
      ∧ out1.length ≤ [[(⟨0, 3, 0, 10⟩ : DMatch), ⟨0, 4, 0, 15⟩],
          [⟨1, 7, 0, 5⟩, ⟨1, 2, 0, 12⟩], [⟨2, 1, 0, 12⟩, ⟨2, 5, 0, 13⟩]].length)
    ∧ ratioLoop (1 / 2) [[⟨0, 3, 0, 10⟩, ⟨0, 4, 0, 15⟩], [⟨1, 7, 0, 5⟩, ⟨1, 2, 0, 12⟩],
          [⟨2, 1, 0, 12⟩, ⟨2, 5, 0, 13⟩]] [] = some [⟨1, 7, 0, 5⟩]
    ∧ ratioLoop (4 / 5) [[⟨0, 3, 0, 10⟩, ⟨0, 4, 0, 15⟩], [⟨1, 7, 0, 5⟩, ⟨1, 2, 0, 12⟩],
          [⟨2, 1, 0, 12⟩, ⟨2, 5, 0, 13⟩]] [] = some [⟨0, 3, 0, 10⟩, ⟨1, 7, 0, 5⟩] :=
  ⟨ratio_filter_monotone (1 / 2) (4 / 5) (by norm_num) _ (by simp) (by simp),
    by norm_num [ratioLoop], by norm_num [ratioLoop]⟩

/-! ## The suppression step -/

theorem overlapLoop_eq_map (overlap : KeyPoint → KeyPoint → ℚ) (maxOv : ℚ)
    (newKeypoint : KeyPoint) (keypoints : List KeyPoint) (processed : Bool) :
    overlapLoop overlap maxOv newKeypoint keypoints processed =
      (keypoints.map fun it =>
          if maxOv < overlap newKeypoint it ∧ it.response < newKeypoint.response
          then newKeypoint else it,
        processed || keypoints.any fun it => decide (maxOv < overlap newKeypoint it)) := by
  induction keypoints generalizing processed with
  | nil => simp [overlapLoop]
  | cons it rest ih =>
    by_cases hov : maxOv < overlap newKeypoint it
    · by_cases hresp : it.response < newKeypoint.response
      · simp [overlapLoop, hov, hresp, ih]
      · simp [overlapLoop, hov, hresp, ih]
    · simp [overlapLoop, hov, ih]

theorem suppressStep_of_collision (overlap : KeyPoint → KeyPoint → ℚ) (maxOv : ℚ)
    (newKeypoint : KeyPoint) (keypoints : List KeyPoint)
    (h : ∃ it ∈ keypoints, maxOv < overlap newKeypoint it) :
    suppressStep overlap maxOv newKeypoint keypoints =
      keypoints.map fun it =>
        if maxOv < overlap newKeypoint it ∧ it.response < newKeypoint.response
        then newKeypoint else it := by
  have hany : (keypoints.any fun it => decide (maxOv < overlap newKeypoint it)) = true := by
    obtain ⟨it, hmem, hov⟩ := h
    exact List.any_eq_true.mpr ⟨it, hmem, by simpa using hov⟩
  simp [suppressStep, overlapLoop_eq_map, hany]

theorem suppressStep_of_no_collision (overlap : KeyPoint → KeyPoint → ℚ) (maxOv : ℚ)
    (newKeypoint : KeyPoint) (keypoints : List KeyPoint)
    (h : ∀ it ∈ keypoints, ¬ maxOv < overlap newKeypoint it) :
    suppressStep overlap maxOv newKeypoint keypoints = keypoints ++ [newKeypoint] := by
  have hany : (keypoints.any fun it => decide (maxOv < overlap newKeypoint it)) = false := by
    rw [List.any_eq_false]
    intro it hmem
    simpa using h it hmem
  have hmap : (keypoints.map fun it =>
      if maxOv < overlap newKeypoint it ∧ it.response < newKeypoint.response
      then newKeypoint else it) = keypoints := by
    conv_rhs => rw [← List.map_id keypoints]
    apply List.map_congr_left
    intro it hmem
    simp [h it hmem]
  simp [suppressStep, overlapLoop_eq_map, hany, hmap]

/-- C10. One suppression step on a candidate `newKeypoint` and a result list: when the
candidate overlaps some entry by more than `maxOverlap`, every such entry of strictly
lower response is overwritten in place by the candidate, every other entry is kept, and
the length is unchanged; when it overlaps no entry that much, the result is the old list
with the candidate appended. -/
theorem suppression_step (overlap : KeyPoint → KeyPoint → ℚ) (maxOv : ℚ)
    (newKeypoint : KeyPoint) (keypoints : List KeyPoint) :
    ((∃ it ∈ keypoints, maxOv < overlap newKeypoint it) →
        suppressStep overlap maxOv newKeypoint keypoints =
            (keypoints.map fun it =>
              if maxOv < overlap newKeypoint it ∧ it.response < newKeypoint.response
              then newKeypoint else it)
          ∧ (suppressStep overlap maxOv newKeypoint keypoints).length = keypoints.length)
      ∧ ((∀ it ∈ keypoints, ¬ maxOv < overlap newKeypoint it) →
        suppressStep overlap maxOv newKeypoint keypoints = keypoints ++ [newKeypoint]) := by
  refine ⟨fun h => ?_, suppressStep_of_no_collision overlap maxOv newKeypoint keypoints⟩
  rw [suppressStep_of_collision overlap maxOv newKeypoint keypoints h]
  exact ⟨rfl, List.length_map _ _⟩

/-! ## The raster scan -/

theorem foldl_sprod {α β γ : Type} (f : γ → α → β → γ) (l1 : List α) (l2 : List β)
    (init : γ) :
    (l1 ×ˢ l2).foldl (fun acc c => f acc c.1 c.2) init
      = l1.foldl (fun acc a => l2.foldl (fun acc1 b => f acc1 a b) acc) init := by
  induction l1 generalizing init with
  | nil => rfl
  | cons a rest ih =>
    rw [List.product_cons, List.foldl_append, List.foldl_map, List.foldl_cons, ih]

theorem harrisScan_eq_foldl_cells (overlap : KeyPoint → KeyPoint → ℚ) (maxOv : ℚ)
    (minResp aperture : Int) (dstNorm : Mat) (keypoints : List KeyPoint) :
    harrisScan overlap maxOv minResp aperture dstNorm keypoints
      = (rasterCells dstNorm).foldl
          (fun acc c => scanCell overlap maxOv minResp aperture dstNorm c.1 c.2 acc)
          keypoints := by
  unfold harrisScan rasterCells
  exact (foldl_sprod
    (fun acc i j => scanCell overlap maxOv minResp aperture dstNorm i j acc) _ _ _).symm

theorem foldl_filter_of_skip {α γ : Type} (f : γ → α → γ) (P : α → Bool)
    (hskip : ∀ acc x, P x = false → f acc x = acc) (l : List α) (init : γ) :
    l.foldl f init = (l.filter P).foldl f init := by
  induction l generalizing init with
  | nil => rfl
  | cons x xs ih =>
    cases hP : P x with
    | true => simp [List.filter_cons, hP, ih]
    | false => simp [List.filter_cons, hP, hskip init x hP, ih]

theorem filter_eq_singleton {α : Type} (P : α → Bool) (l : List α) (hnd : l.Nodup) (a : α)
    (ha : a ∈ l) (hPa : P a = true) (huniq : ∀ x ∈ l, P x = true → x = a) :
    l.filter P = [a] := by
  induction l with
  | nil => simp at ha
  | cons x xs ih =>
    have hx : x ∉ xs := (List.nodup_cons.mp hnd).1
    have hxs : xs.Nodup := (List.nodup_cons.mp hnd).2
    by_cases hxa : x = a
    · subst hxa
      have hnil : xs.filter P = [] := by
        rw [List.filter_eq_nil_iff]
        intro y hy hPy
        have hyx := huniq y (List.mem_cons_of_mem _ hy) hPy
        exact hx (hyx ▸ hy)
      simp [List.filter_cons, hPa, hnil]
    · have hmem : a ∈ xs := by
        rcases List.mem_cons.mp ha with h | h
        · exact absurd h.symm hxa
        · exact h
      have hPx : P x = false := by
        cases hP : P x with
        | false => rfl
        | true => exact absurd (huniq x (List.mem_cons_self _ _) hP) hxa
      have hrec := ih hxs hmem (fun y hy hPy => huniq y (List.mem_cons_of_mem _ hy) hPy)
      simp [List.filter_cons, hPx, hrec]

theorem filter_eq_pair {α : Type} (P : α → Bool) (l : List α) (hnd : l.Nodup) (a b : α)
    (hab : a ≠ b) (ha : a ∈ l) (hb : b ∈ l) (hPa : P a = true) (hPb : P b = true)
    (honly : ∀ x ∈ l, P x = true → x = a ∨ x = b) :
    l.filter P = [a, b] ∨ l.filter P = [b, a] := by
  induction l with
  | nil => simp at ha
  | cons x xs ih =>
    have hx : x ∉ xs := (List.nodup_cons.mp hnd).1
    have hxs : xs.Nodup := (List.nodup_cons.mp hnd).2
    have honly1 : ∀ y ∈ xs, P y = true → y = a ∨ y = b :=
      fun y hy hPy => honly y (List.mem_cons_of_mem _ hy) hPy
    by_cases hxa : x = a
    · subst hxa
      have hbm : b ∈ xs := by
        rcases List.mem_cons.mp hb with h | h
        · exact absurd h.symm hab
        · exact h
      have hone : xs.filter P = [b] := by
        apply filter_eq_singleton P xs hxs b hbm hPb
        intro y hy hPy
        rcases honly1 y hy hPy with h | h
        · exact absurd (h ▸ hy) hx
        · exact h
      left
      simp [List.filter_cons, hPa, hone]
    · by_cases hxb : x = b
      · subst hxb
        have ham : a ∈ xs := by
          rcases List.mem_cons.mp ha with h | h
          · exact absurd h hab
          · exact h
        have hone : xs.filter P = [a] := by
          apply filter_eq_singleton P xs hxs a ham hPa
          intro y hy hPy
          rcases honly1 y hy hPy with h | h
          · exact h
          · exact absurd (h ▸ hy) hx
        right
        simp [List.filter_cons, hPb, hone]
      · have ham : a ∈ xs := by
          rcases List.mem_cons.mp ha with h | h
          · exact absurd h.symm hxa
          · exact h
        have hbm : b ∈ xs := by
          rcases List.mem_cons.mp hb with h | h
          · exact absurd h.symm hxb
          · exact h
        have hPx : P x = false := by
          cases hP : P x with
          | false => rfl
          | true =>
            rcases honly x (List.mem_cons_self _ _) hP with h | h
            · exact absurd h hxa
            · exact absurd h hxb
        rcases ih hxs ham hbm honly1 with h | h
        · left
          simp [List.filter_cons, hPx, h]
        · right
          simp [List.filter_cons, hPx, h]

theorem staticCastInt_eq_of_lt_of_le (m : Int) (v : ℚ) (hlt : (m : ℚ) < v)
    (hle : staticCastInt v ≤ m) : staticCastInt v = m := by
  unfold staticCastInt at hle ⊢
  by_cases h0 : 0 ≤ v
  · rw [if_pos h0] at hle ⊢
    have h1 : m ≤ ⌊v⌋ := Int.le_floor.mpr (le_of_lt hlt)
    omega
  · rw [if_neg h0] at hle
    have h1 : -m ≤ ⌊-v⌋ := by omega
    have h2 : ((-m : Int) : ℚ) ≤ -v := Int.le_floor.mp h1
    push_cast at h2
    linarith

theorem rasterCells_nodup (dstNorm : Mat) : (rasterCells dstNorm).Nodup :=
  List.Nodup.product (List.nodup_range _) (List.nodup_range _)

theorem mem_rasterCells (dstNorm : Mat) (i j : Nat) :
    (i, j) ∈ rasterCells dstNorm ↔ i < dstNorm.rows ∧ j < dstNorm.cols := by
  simp [rasterCells, List.pair_mem_product]

theorem suppressStep_nil (overlap : KeyPoint → KeyPoint → ℚ) (maxOv : ℚ)
    (newKeypoint : KeyPoint) :
    suppressStep overlap maxOv newKeypoint [] = [newKeypoint] := by
  simp [suppressStep, overlapLoop]

theorem suppressStep_singleton_collision (overlap : KeyPoint → KeyPoint → ℚ) (maxOv : ℚ)
    (newKeypoint old : KeyPoint) (hov : maxOv < overlap newKeypoint old) :
    suppressStep overlap maxOv newKeypoint [old]
      = [if old.response < newKeypoint.response then newKeypoint else old] := by
  rw [suppressStep_of_collision overlap maxOv newKeypoint [old] ⟨old, by simp, hov⟩]
  simp [hov]

theorem two_candidates_scan (overlap : KeyPoint → KeyPoint → ℚ) (maxOv : ℚ)
    (aperture : Int) (i1 j1 i2 j2 : Nat) (r1 r2 : Int) (hdiff : r1 ≠ r2)
    (hov : maxOv < overlap (newKeypointAt aperture i2 j2 r2) (newKeypointAt aperture i1 j1 r1)) :
    suppressStep overlap maxOv (newKeypointAt aperture i2 j2 r2)
        (suppressStep overlap maxOv (newKeypointAt aperture i1 j1 r1) [])
      = [if r2 < r1 then newKeypointAt aperture i1 j1 r1
          else newKeypointAt aperture i2 j2 r2] := by
  rw [suppressStep_nil, suppressStep_singleton_collision _ _ _ _ hov]
  have hresp : ((newKeypointAt aperture i1 j1 r1).response
      < (newKeypointAt aperture i2 j2 r2).response) ↔ r1 < r2 := by
    simp [newKeypointAt]
  by_cases h : r1 < r2
  · have h1 : ¬ r2 < r1 := by omega
    rw [if_pos (hresp.mpr h), if_neg h1]
  · have h1 : r2 < r1 := by omega
    rw [if_neg (fun hc => h (hresp.mp hc)), if_pos h1]

theorem two_cells_scan_eq_candidate (overlap : KeyPoint → KeyPoint → ℚ) (maxOv : ℚ)
    (minResp aperture : Int) (dstNorm : Mat) (i1 j1 i2 j2 : Nat)
    (hi1 : i1 < dstNorm.rows) (hj1 : j1 < dstNorm.cols)
    (hi2 : i2 < dstNorm.rows) (hj2 : j2 < dstNorm.cols)
    (hne : (i1, j1) ≠ (i2, j2))
    (h1 : (minResp : ℚ) < dstNorm.atFloat i1 j1)
    (h2 : (minResp : ℚ) < dstNorm.atFloat i2 j2)
    (hothers : ∀ i j, i < dstNorm.rows → j < dstNorm.cols → (i, j) ≠ (i1, j1) →
      (i, j) ≠ (i2, j2) → staticCastInt (dstNorm.atFloat i j) ≤ minResp)
    (hdiff : staticCastInt (dstNorm.atFloat i1 j1) ≠ staticCastInt (dstNorm.atFloat i2 j2))
    (hov12 : maxOv <
      overlap (newKeypointAt aperture i1 j1 (staticCastInt (dstNorm.atFloat i1 j1)))
        (newKeypointAt aperture i2 j2 (staticCastInt (dstNorm.atFloat i2 j2))))
    (hov21 : maxOv <
      overlap (newKeypointAt aperture i2 j2 (staticCastInt (dstNorm.atFloat i2 j2)))
        (newKeypointAt aperture i1 j1 (staticCastInt (dstNorm.atFloat i1 j1)))) :
    harrisScan overlap maxOv minResp aperture dstNorm []
      = [if staticCastInt (dstNorm.atFloat i2 j2) < staticCastInt (dstNorm.atFloat i1 j1)
          then newKeypointAt aperture i1 j1 (staticCastInt (dstNorm.atFloat i1 j1))
          else newKeypointAt aperture i2 j2 (staticCastInt (dstNorm.atFloat i2 j2))] := by
  have hskip : ∀ (acc : List KeyPoint) (c : Nat × Nat),
      (fun c : Nat × Nat => decide (minResp < staticCastInt (dstNorm.atFloat c.1 c.2))) c
        = false →
      (fun acc c => scanCell overlap maxOv minResp aperture dstNorm c.1 c.2 acc) acc c
        = acc := by
    intro acc c hc
    have hc1 : ¬ minResp < staticCastInt (dstNorm.atFloat c.1 c.2) := by simpa using hc
    simp [scanCell, hc1]
  rw [harrisScan_eq_foldl_cells, foldl_filter_of_skip _ _ hskip]
  have hm1 : (i1, j1) ∈ rasterCells dstNorm := (mem_rasterCells _ _ _).mpr ⟨hi1, hj1⟩
  have hm2 : (i2, j2) ∈ rasterCells dstNorm := (mem_rasterCells _ _ _).mpr ⟨hi2, hj2⟩
  have honly : ∀ c ∈ rasterCells dstNorm,
      decide (minResp < staticCastInt (dstNorm.atFloat c.1 c.2)) = true →
      c = (i1, j1) ∨ c = (i2, j2) := by
    intro c hc hP
    by_contra hcon
    push_neg at hcon
    have hb := (mem_rasterCells dstNorm c.1 c.2).mp hc
    have := hothers c.1 c.2 hb.1 hb.2 hcon.1 hcon.2
    have hP1 : minResp < staticCastInt (dstNorm.atFloat c.1 c.2) := by simpa using hP
    omega
  by_cases hc1 : minResp < staticCastInt (dstNorm.atFloat i1 j1)
  · by_cases hc2 : minResp < staticCastInt (dstNorm.atFloat i2 j2)
    · rcases filter_eq_pair _ _ (rasterCells_nodup dstNorm) (i1, j1) (i2, j2) hne hm1 hm2
          (by simpa using hc1) (by simpa using hc2) honly with h | h
      · rw [h]
        simp only [List.foldl_cons, List.foldl_nil, scanCell, if_pos hc1, if_pos hc2]
        exact two_candidates_scan overlap maxOv aperture i1 j1 i2 j2 _ _ hdiff hov21
      · rw [h]
        simp only [List.foldl_cons, List.foldl_nil, scanCell, if_pos hc1, if_pos hc2]
        rw [two_candidates_scan overlap maxOv aperture i2 j2 i1 j1 _ _ (Ne.symm hdiff) hov12]
        by_cases hlt : staticCastInt (dstNorm.atFloat i2 j2)
            < staticCastInt (dstNorm.atFloat i1 j1)
        · have hlt1 : ¬ staticCastInt (dstNorm.atFloat i1 j1)
              < staticCastInt (dstNorm.atFloat i2 j2) := by omega
          rw [if_pos hlt, if_neg hlt1]
        · have hlt1 : staticCastInt (dstNorm.atFloat i1 j1)
              < staticCastInt (dstNorm.atFloat i2 j2) := by omega
          rw [if_neg hlt, if_pos hlt1]
    · have hone := filter_eq_singleton
        (fun c : Nat × Nat => decide (minResp < staticCastInt (dstNorm.atFloat c.1 c.2)))
        _ (rasterCells_nodup dstNorm) (i1, j1) hm1 (by simpa using hc1)
        (by
          intro c hc hP
          rcases honly c hc hP with h | h
          · exact h
          · subst h
            exact absurd (by simpa using hP) hc2)
      rw [hone]
      simp only [List.foldl_cons, List.foldl_nil, scanCell, if_pos hc1, suppressStep_nil]
      rw [if_pos (by omega)]
  · by_cases hc2 : minResp < staticCastInt (dstNorm.atFloat i2 j2)
    · have hone := filter_eq_singleton
        (fun c : Nat × Nat => decide (minResp < staticCastInt (dstNorm.atFloat c.1 c.2)))
        _ (rasterCells_nodup dstNorm) (i2, j2) hm2 (by simpa using hc2)
        (by
          intro c hc hP
          rcases honly c hc hP with h | h
          · subst h
            exact absurd (by simpa using hP) hc1
          · exact h)
      rw [hone]
      simp only [List.foldl_cons, List.foldl_nil, scanCell, if_pos hc2, suppressStep_nil]
      rw [if_neg (by omega)]
    · exfalso
      have e1 := staticCastInt_eq_of_lt_of_le minResp _ h1 (by omega)
      have e2 := staticCastInt_eq_of_lt_of_le minResp _ h2 (by omega)
      exact hdiff (e1.trans e2.symm)

/-- C6 as stated fails. Two adjacent cells scoring `150.25` and `150.75` both exceed the
threshold `100`, their scores differ and their keypoints overlap, yet the scan keeps
the keypoint of the lower-scoring cell (column 0, response `150`): both scores truncate
to `150` and the later candidate does not replace an entry of equal response. Two
adjacent cells scoring `100.5` and `100.75` give no keypoint at all. -/
theorem close_scores_keep_first_cell :
    scoreCloseLowHigh.atFloat 0 0 = 601 / 4
      ∧ scoreCloseLowHigh.atFloat 0 1 = 603 / 4
      ∧ (minResponse : ℚ) < scoreCloseLowHigh.atFloat 0 0
      ∧ scoreCloseLowHigh.atFloat 0 0 < scoreCloseLowHigh.atFloat 0 1
      ∧ maxOverlap < overlapSign
          { pt := ⟨1, 0⟩, size := 6, angle := -1, response := 150, octave := 0, class_id := 0 }
          { pt := ⟨0, 0⟩, size := 6, angle := -1, response := 150, octave := 0, class_id := 0 }
      ∧ detKeypointsHarris overlapSign scoreCloseLowHigh []
        = [{ pt := ⟨0, 0⟩, size := 6, angle := -1, response := 150, octave := 0,
             class_id := 0 }]
      ∧ (minResponse : ℚ) < scoreBarelyAbove.atFloat 0 0
      ∧ scoreBarelyAbove.atFloat 0 0 < scoreBarelyAbove.atFloat 0 1
      ∧ detKeypointsHarris overlapSign scoreBarelyAbove [] = [] := by
  refine ⟨?_, ?_, ?_, ?_, ?_, ?_, ?_, ?_, ?_⟩
  · simp [scoreCloseLowHigh, Mat.ofRows]
  · simp [scoreCloseLowHigh, Mat.ofRows]
  · norm_num [scoreCloseLowHigh, Mat.ofRows, minResponse]
  · norm_num [scoreCloseLowHigh, Mat.ofRows]
  · norm_num [overlapSign, discsIntersect, maxOverlap]
  · norm_num [detKeypointsHarris, harrisScan, scanCell, suppressStep, overlapLoop,
      staticCastInt, overlapSign, discsIntersect, newKeypointAt, Mat.ofRows,
      scoreCloseLowHigh, List.range_succ, maxOverlap, minResponse, scaledApertureSize,
      apertureSize]
  · norm_num [scoreBarelyAbove, Mat.ofRows, minResponse]
  · norm_num [scoreBarelyAbove, Mat.ofRows]
  · norm_num [detKeypointsHarris, harrisScan, scanCell, staticCastInt, Mat.ofRows,
      scoreBarelyAbove, List.range_succ, minResponse]

/-- C6, amended. In a response map where two distinct cells score above the threshold
and no other cell passes the threshold test, where the score of the cell `(iHi, jHi)`
truncated toward zero is strictly greater than the truncated score of the cell
`(iLo, jLo)`, and where the keypoints of the two cells overlap by more than
`maxOverlap`, the scan started on an empty list returns exactly one keypoint: it is
located at `x = jHi`, `y = iHi`, its response is the truncated score of that cell and
its size is the aperture. Nothing is assumed on which of the two cells the raster order
visits first. -/
theorem two_overlapping_cells_keep_higher (overlap : KeyPoint → KeyPoint → ℚ) (maxOv : ℚ)
    (minResp aperture : Int) (dstNorm : Mat) (iHi jHi iLo jLo : Nat)
    (hiHi : iHi < dstNorm.rows) (hjHi : jHi < dstNorm.cols)
    (hiLo : iLo < dstNorm.rows) (hjLo : jLo < dstNorm.cols)
    (hne : (iHi, jHi) ≠ (iLo, jLo))
    (hHi : (minResp : ℚ) < dstNorm.atFloat iHi jHi)
    (hLo : (minResp : ℚ) < dstNorm.atFloat iLo jLo)
    (hothers : ∀ i j, i < dstNorm.rows → j < dstNorm.cols → (i, j) ≠ (iHi, jHi) →
      (i, j) ≠ (iLo, jLo) → staticCastInt (dstNorm.atFloat i j) ≤ minResp)
    (hhigher : staticCastInt (dstNorm.atFloat iLo jLo)
      < staticCastInt (dstNorm.atFloat iHi jHi))
    (hovHiLo : maxOv < overlap
      { pt := ⟨(jHi : ℚ), (iHi : ℚ)⟩, size := (aperture : ℚ), angle := -1,
        response := (staticCastInt (dstNorm.atFloat iHi jHi) : ℚ), octave := 0,
        class_id := 0 }
      { pt := ⟨(jLo : ℚ), (iLo : ℚ)⟩, size := (aperture : ℚ), angle := -1,
        response := (staticCastInt (dstNorm.atFloat iLo jLo) : ℚ), octave := 0,
        class_id := 0 })
    (hovLoHi : maxOv < overlap
      { pt := ⟨(jLo : ℚ), (iLo : ℚ)⟩, size := (aperture : ℚ), angle := -1,
        response := (staticCastInt (dstNorm.atFloat iLo jLo) : ℚ), octave := 0,
        class_id := 0 }
      { pt := ⟨(jHi : ℚ), (iHi : ℚ)⟩, size := (aperture : ℚ), angle := -1,
        response := (staticCastInt (dstNorm.atFloat iHi jHi) : ℚ), octave := 0,
        class_id := 0 }) :
    harrisScan overlap maxOv minResp aperture dstNorm []
      = [{ pt := ⟨(jHi : ℚ), (iHi : ℚ)⟩, size := (aperture : ℚ), angle := -1,
           response := (staticCastInt (dstNorm.atFloat iHi jHi) : ℚ), octave := 0,
           class_id := 0 }] := by
  rw [two_cells_scan_eq_candidate overlap maxOv minResp aperture dstNorm iHi jHi iLo jLo
    hiHi hjHi hiLo hjLo hne hHi hLo hothers (ne_of_gt hhigher) hovHiLo hovLoHi,
    if_pos hhigher]
  rfl

/-- C6, amended, on the scenario of the specification: two adjacent cells scoring `150`
and `200`, threshold `100`, `maxOverlap = 0.0`, give one keypoint located at the cell
scoring `200`, in either raster order. -/
theorem two_overlapping_cells_keep_higher_witness :
    harrisScan overlapSign maxOverlap minResponse scaledApertureSize adjacentLowHigh []
        = [{ pt := ⟨1, 0⟩, size := 6, angle := -1, response := 200, octave := 0,
             class_id := 0 }]
      ∧ harrisScan overlapSign maxOverlap minResponse scaledApertureSize adjacentHighLow []
        = [{ pt := ⟨0, 0⟩, size := 6, angle := -1, response := 200, octave := 0,
             class_id := 0 }] := by
  constructor
  · have h := two_overlapping_cells_keep_higher overlapSign maxOverlap minResponse
      scaledApertureSize adjacentLowHigh 0 1 0 0
      (by simp [adjacentLowHigh, Mat.ofRows]) (by simp [adjacentLowHigh, Mat.ofRows])
      (by simp [adjacentLowHigh, Mat.ofRows]) (by simp [adjacentLowHigh, Mat.ofRows])
      (by decide)
      (by norm_num [adjacentLowHigh, Mat.ofRows, minResponse])
      (by norm_num [adjacentLowHigh, Mat.ofRows, minResponse])
      (by
        intro i j hi hj ha hb
        simp only [adjacentLowHigh, Mat.ofRows, List.length_cons, List.length_nil,
          List.headD_cons] at hi hj
        interval_cases i
        interval_cases j
        · exact absurd rfl hb
        · exact absurd rfl ha)
      (by norm_num [adjacentLowHigh, Mat.ofRows, staticCastInt])
      (by norm_num [adjacentLowHigh, Mat.ofRows, staticCastInt, overlapSign, discsIntersect,
        maxOverlap, scaledApertureSize, apertureSize])
      (by norm_num [adjacentLowHigh, Mat.ofRows, staticCastInt, overlapSign, discsIntersect,
        maxOverlap, scaledApertureSize, apertureSize])
    rw [h]
    norm_num [adjacentLowHigh, Mat.ofRows, staticCastInt, scaledApertureSize, apertureSize]
  · have h := two_overlapping_cells_keep_higher overlapSign maxOverlap minResponse
      scaledApertureSize adjacentHighLow 0 0 0 1
      (by simp [adjacentHighLow, Mat.ofRows]) (by simp [adjacentHighLow, Mat.ofRows])
      (by simp [adjacentHighLow, Mat.ofRows]) (by simp [adjacentHighLow, Mat.ofRows])
      (by decide)
      (by norm_num [adjacentHighLow, Mat.ofRows, minResponse])
      (by norm_num [adjacentHighLow, Mat.ofRows, minResponse])
      (by
        intro i j hi hj ha hb
        simp only [adjacentHighLow, Mat.ofRows, List.length_cons, List.length_nil,
          List.headD_cons] at hi hj
        interval_cases i
        interval_cases j
        · exact absurd rfl ha
        · exact absurd rfl hb)
      (by norm_num [adjacentHighLow, Mat.ofRows, staticCastInt])
      (by norm_num [adjacentHighLow, Mat.ofRows, staticCastInt, overlapSign, discsIntersect,
        maxOverlap, scaledApertureSize, apertureSize])
      (by norm_num [adjacentHighLow, Mat.ofRows, staticCastInt, overlapSign, discsIntersect,
        maxOverlap, scaledApertureSize, apertureSize])
    rw [h]
    norm_num [adjacentHighLow, Mat.ofRows, staticCastInt, scaledApertureSize, apertureSize]

/-- C10 on an instance with `maxOverlap = 0.0`: the candidate `kpC` overlaps `kpA` (lower
response, overwritten) and `kpB` (higher response, kept) and not `kpD` (kept); the
keypoint `kpD` overlaps none of `kpA`, `kpB` and is appended. -/
theorem suppression_step_witness :
    suppressStep overlapSign 0 kpC [kpA, kpB, kpD] = [kpC, kpB, kpD]
      ∧ (suppressStep overlapSign 0 kpC [kpA, kpB, kpD]).length = 3
      ∧ suppressStep overlapSign 0 kpD [kpA, kpB] = [kpA, kpB, kpD] := by
  have h1 := (suppression_step overlapSign 0 kpC [kpA, kpB, kpD]).1
    ⟨kpA, by simp, by
      norm_num [overlapSign, discsIntersect, kpA, kpC, newKeypointAt]⟩
  have h2 := (suppression_step overlapSign 0 kpD [kpA, kpB]).2 (by
    intro it hit
    simp only [List.mem_cons, List.mem_singleton, List.not_mem_nil, or_false] at hit
    rcases hit with h | h <;> subst h <;>
      norm_num [overlapSign, discsIntersect, kpA, kpB, kpD, newKeypointAt])
  refine ⟨?_, ?_, h2⟩
  · rw [h1.1]
    norm_num [overlapSign, discsIntersect, kpA, kpB, kpC, kpD, newKeypointAt]
  · rw [h1.2]
    rfl

/-! ## The scan on the sample maps -/

theorem detKeypointsHarris_sampleMap :
    detKeypointsHarris overlapSign sampleMap [] = [kpC, kpB] := by
  norm_num [detKeypointsHarris, harrisScan, scanCell, suppressStep, overlapLoop,
    staticCastInt, overlapSign, discsIntersect, newKeypointAt, Mat.ofRows, sampleMap,
    List.range_succ, maxOverlap, minResponse, scaledApertureSize, apertureSize, kpB, kpC]

/-- C2 fails on the code. On `sampleMap` the scan returns `kpC` and `kpB`, two distinct
keypoints whose discs intersect (overlap above `maxOverlap = 0.0`): `kpC` replaced the
non-overlapping `kpA` and was never compared with `kpB` again. On `sampleMapPeak` the
candidate at row 1 overwrites both earlier entries, and the list holds it twice. -/
theorem harris_scan_leaves_overlapping_keypoints :
    detKeypointsHarris overlapSign sampleMap [] = [kpC, kpB]
      ∧ kpC ≠ kpB
      ∧ maxOverlap < overlapSign kpC kpB
      ∧ maxOverlap < overlapSign kpB kpC
      ∧ detKeypointsHarris overlapSign sampleMapPeak [] = [kpPeak, kpPeak] := by
  refine ⟨detKeypointsHarris_sampleMap, by decide, ?_, ?_, ?_⟩
  · norm_num [overlapSign, discsIntersect, newKeypointAt, maxOverlap, kpB, kpC]
  · norm_num [overlapSign, discsIntersect, newKeypointAt, maxOverlap, kpB, kpC]
  · norm_num [detKeypointsHarris, harrisScan, scanCell, suppressStep, overlapLoop,
      staticCastInt, overlapSign, discsIntersect, newKeypointAt, Mat.ofRows, sampleMapPeak,
      List.range_succ, maxOverlap, minResponse, scaledApertureSize, apertureSize, kpPeak]

/-- C7 fails on the code. The scan of `sampleMap` returns `kpC` and `kpB`; the scan of
the response map of that result (same size) returns `kpB` alone, so `kpC` is lost. -/
theorem harris_scan_not_idempotent :
    detKeypointsHarris overlapSign
        (responseMapOf sampleMap.rows sampleMap.cols
          (detKeypointsHarris overlapSign sampleMap [])) []
      = [kpB]
      ∧ kpC ∈ detKeypointsHarris overlapSign sampleMap []
      ∧ kpC ∉ detKeypointsHarris overlapSign
          (responseMapOf sampleMap.rows sampleMap.cols
            (detKeypointsHarris overlapSign sampleMap [])) [] := by
  have h2 : detKeypointsHarris overlapSign
      (responseMapOf sampleMap.rows sampleMap.cols
        (detKeypointsHarris overlapSign sampleMap [])) [] = [kpB] := by
    rw [detKeypointsHarris_sampleMap]
    norm_num [detKeypointsHarris, harrisScan, scanCell, suppressStep, overlapLoop,
      staticCastInt, overlapSign, discsIntersect, newKeypointAt, Mat.ofRows, sampleMap,
      responseMapOf, List.find?, List.range_succ, maxOverlap, minResponse,
      scaledApertureSize, apertureSize, kpB, kpC]
  refine ⟨h2, ?_, ?_⟩
  · rw [detKeypointsHarris_sampleMap]
    simp
  · rw [h2]
    decide

/-! ## The frame buffer -/

theorem ringPush_eq_drop {α : Type} (cap : Nat) (hcap : 1 ≤ cap) (buf : List α)
    (hle : buf.length ≤ cap) (f : α) :
    ringPush cap buf f = some ((buf ++ [f]).drop (buf.length + 1 - cap)) := by
  unfold ringPush
  by_cases hfull : buf.length = cap
  · rw [if_pos hfull]
    match buf, hfull with
    | [], h0 =>
      simp only [List.length_nil] at h0
      omega
    | a :: rest, h1 =>
      simp only [List.length_cons] at h1
      have h2 : (a :: rest).length + 1 - cap = 1 := by
        simp only [List.length_cons]
        omega
      rw [h2]
      rfl
  · rw [if_neg hfull]
    have h2 : buf.length + 1 - cap = 0 := by omega
    rw [h2]
    rfl

theorem drop_snoc_keep {α : Type} (cap : Nat) (done : List α) (f : α) :
    ((done.drop (done.length - cap)) ++ [f]).drop
        ((done.drop (done.length - cap)).length + 1 - cap)
      = (done ++ [f]).drop ((done ++ [f]).length - cap) := by
  by_cases hlt : done.length < cap
  · have h0 : done.length - cap = 0 := by omega
    have h1 : done.length + 1 - cap = 0 := by omega
    simp [h0, h1]
  · have hk : done.length - cap ≤ done.length := Nat.sub_le _ _
    have h1 : (done.drop (done.length - cap)).length + 1 - cap = 1 := by
      simp only [List.length_drop]
      omega
    have h2 : (done ++ [f]).length - cap = (done.length - cap) + 1 := by
      simp only [List.length_append, List.length_singleton]
      omega
    rw [h1, h2, ← List.drop_drop, List.drop_append_of_le_length hk]

theorem ringPushAll_eq_drop {α : Type} (cap : Nat) (hcap : 1 ≤ cap) (frames done : List α) :
    ringPushAll cap (done.drop (done.length - cap)) frames
      = some ((done ++ frames).drop ((done ++ frames).length - cap)) := by
  induction frames generalizing done with
  | nil => simp [ringPushAll]
  | cons f fs ih =>
    have hle : (done.drop (done.length - cap)).length ≤ cap := by
      simp only [List.length_drop]
      omega
    have hstep := ringPush_eq_drop cap hcap _ hle f
    rw [drop_snoc_keep] at hstep
    have hrec := ih (done ++ [f])
    unfold ringPushAll at hrec ⊢
    rw [List.foldlM_cons, hstep]
    simpa using hrec

/-- C3. For a capacity of at least one, pushing `n` frames one by one into an empty
buffer succeeds and leaves exactly the last `min n capacity` frames in insertion order;
each push into a buffer of at most `capacity` frames leaves `min capacity (size + 1)`
frames, evicting the single oldest frame when the buffer was full and nothing
otherwise. -/
theorem ring_buffer_fifo {α : Type} (cap : Nat) (hcap : 1 ≤ cap) (frames : List α) :
    ringPushAll cap [] frames
        = some (frames.drop (frames.length - min frames.length cap))
      ∧ (frames.drop (frames.length - min frames.length cap)).length
        = min frames.length cap
      ∧ ∀ (buf : List α) (f : α), buf.length ≤ cap →
          ∃ buf1, ringPush cap buf f = some buf1
            ∧ buf1.length = min cap (buf.length + 1)
            ∧ (buf.length = cap → buf1 = buf.tail ++ [f])
            ∧ (buf.length < cap → buf1 = buf ++ [f]) := by
  refine ⟨?_, ?_, ?_⟩
  · have h := ringPushAll_eq_drop cap hcap frames []
    have hm : frames.length - min frames.length cap = frames.length - cap := by omega
    simpa [hm] using h
  · simp only [List.length_drop]
    omega
  · intro buf f hle
    refine ⟨_, ringPush_eq_drop cap hcap buf hle f, ?_, ?_, ?_⟩
    · simp only [List.length_drop, List.length_append, List.length_singleton]
      omega
    · intro hfull
      have h2 : buf.length + 1 - cap = 1 := by omega
      rw [h2]
      cases buf with
      | nil => simp at hfull; omega
      | cons a rest => rfl
    · intro hlt
      have h2 : buf.length + 1 - cap = 0 := by omega
      rw [h2]
      rfl

/-- C3 on an instance: five frames pushed with capacity two leave the last two. -/
theorem ring_buffer_fifo_witness :
    ringPushAll 2 [] [10, 11, 12, 13, 14] = some [13, 14]
      ∧ ringPush 2 [12, 13] 14 = some [13, 14] :=
  ⟨(ring_buffer_fifo 2 (by decide) [10, 11, 12, 13, 14]).1,
    by decide⟩

/-- C9. For a capacity of at least two and at least two frames pushed into an empty
buffer, the element at `dataBuffer.end() - 1` is the frame pushed last and the element
at `dataBuffer.end() - 2` is the frame pushed just before it. -/
theorem previous_current_consistency {α : Type} (cap : Nat) (hcap : 2 ≤ cap)
    (frames : List α) (hn : 2 ≤ frames.length) :
    ∃ buf cur prev, ringPushAll cap [] frames = some buf
      ∧ frames[frames.length - 1]? = some cur
      ∧ frames[frames.length - 2]? = some prev
      ∧ current buf = some cur
      ∧ previous buf = some prev := by
  have hrun := ringPushAll_eq_drop cap (by omega) frames []
  simp only [List.length_nil, Nat.zero_sub, List.drop_zero, List.nil_append] at hrun
  have h1 : frames.length - 1 < frames.length := by omega
  have h2 : frames.length - 2 < frames.length := by omega
  refine ⟨_, frames[frames.length - 1], frames[frames.length - 2], hrun,
    List.getElem?_eq_getElem h1, List.getElem?_eq_getElem h2, ?_, ?_⟩
  · unfold current
    rw [List.getElem?_drop, List.length_drop, List.getElem?_eq_getElem (by omega)]
    congr 2
    omega
  · unfold previous
    rw [if_pos (by simp only [List.length_drop]; omega), List.getElem?_drop,
      List.length_drop, List.getElem?_eq_getElem (by omega)]
    congr 2
    omega

/-- C9 on the frames `F0, F1, F2` (here `0, 1, 2`) with capacity two: the current frame
is `F2`, the previous frame is `F1`, and `F0` is no longer in the buffer. -/
theorem previous_current_consistency_witness :
    (∃ buf cur prev, ringPushAll 2 [] [0, 1, 2] = some buf
      ∧ [0, 1, 2][[0, 1, 2].length - 1]? = some cur
      ∧ [0, 1, 2][[0, 1, 2].length - 2]? = some prev
      ∧ current buf = some cur
      ∧ previous buf = some prev)
    ∧ ringPushAll 2 [] [0, 1, 2] = some [1, 2]
    ∧ current [1, 2] = some 2
    ∧ previous [1, 2] = some 1
    ∧ 0 ∉ [1, 2] :=
  ⟨previous_current_consistency 2 (by decide) [0, 1, 2] (by decide),
    by decide, by decide, by decide, by decide⟩

/-! ## The loop of `main` -/

theorem setCurrent_append_singleton {α : Type} (f : α → α) (X : List α) (a : α) :
    setCurrent f (X ++ [a]) = X ++ [f a] := by
  induction X with
  | nil => rfl
  | cons x xs ih =>
    cases xs with
    | nil => rfl
    | cons y ys =>
      have h : setCurrent f (x :: y :: ys ++ [a]) = x :: setCurrent f (y :: ys ++ [a]) := rfl
      rw [h, ih]
      rfl

theorem current_append_singleton {α : Type} (X : List α) (a : α) :
    current (X ++ [a]) = some a := by
  simp [current]

theorem previous_append_pair {α : Type} (X : List α) (b a : α) :
    previous (X ++ [b] ++ [a]) = some b := by
  unfold previous
  have hlen : (X ++ [b] ++ [a]).length = X.length + 2 := by simp
  have hidx : X.length + 2 - 2 = X.length := by omega
  rw [if_pos (by omega), hlen, hidx, List.getElem?_append_left (by simp),
    List.getElem?_append_right (le_refl _)]
  simp

theorem toInt32_le (n : Nat) : toInt32 n ≤ (n : Int) := by
  unfold toInt32
  omega

theorem matchDescriptors_count_le {Desc : Type} (m : DescriptorMatcher Desc)
    (hm : MatcherObeysInterface m) (kS kR : List KeyPoint) (dS dR : List Desc)
    (sel : SelectorType) :
    ∃ ms cnt, matchDescriptors m kS kR dS dR [] sel = some (ms, cnt)
      ∧ cnt ≤ (dS.length : Int) := by
  cases sel with
  | SEL_NN =>
    refine ⟨_, _, rfl, ?_⟩
    rw [hm.1 dS dR]
    exact toInt32_le _
  | SEL_KNN =>
    have hk := hm.2 dS dR
    have hlen : ∀ e ∈ m.knnMatch dS dR 2, 2 ≤ e.length :=
      fun e he => le_of_eq (hk.2 e he).symm
    refine ⟨(m.knnMatch dS dR 2).filterMap (keepBest minDescDistRatio),
      toInt32 ((m.knnMatch dS dR 2).filterMap (keepBest minDescDistRatio)).length, ?_, ?_⟩
    · simp only [matchDescriptors, ratioLoop_eq_filterMap _ _ hlen, List.nil_append]
    · have h1 := List.length_filterMap_le (keepBest minDescDistRatio) (m.knnMatch dS dR 2)
      have h2 := toInt32_le ((m.knnMatch dS dR 2).filterMap (keepBest minDescDistRatio)).length
      rw [hk.1] at h1
      omega

theorem processImage_first {Img Desc : Type} (B : Backend Img Desc) (cap : Nat)
    (sel : SelectorType) (st : PipelineState Img Desc) (img : Img)
    (hpush : ringPush cap st.dataBuffer
      { cameraImg := img, keypoints := [], descriptors := [], kptMatches := [] }
      = some [{ cameraImg := img, keypoints := [], descriptors := [], kptMatches := [] }]) :
    processImage B cap sel st img = some
      { dataBuffer := [{ cameraImg := img, keypoints := B.detect img,
                         descriptors := B.descKeypoints (B.detect img) img,
                         kptMatches := [] }],
        MatchedKeypoints := st.MatchedKeypoints,
        MatchedKeypoints_vector := st.MatchedKeypoints_vector ++ [0] } := by
  simp [processImage, hpush, setCurrent, current]

theorem processImage_next {Img Desc : Type} (B : Backend Img Desc) (cap : Nat)
    (sel : SelectorType) (st : PipelineState Img Desc) (img : Img)
    (X1 : List (DataFrame Img Desc)) (pv : DataFrame Img Desc)
    (ms : List DMatch) (cnt : Int)
    (hpush : ringPush cap st.dataBuffer
      { cameraImg := img, keypoints := [], descriptors := [], kptMatches := [] }
      = some (X1 ++ [pv]
          ++ [{ cameraImg := img, keypoints := [], descriptors := [], kptMatches := [] }]))
    (hmd : matchDescriptors B.matcher pv.keypoints (B.detect img) pv.descriptors
      (B.descKeypoints (B.detect img) img) [] sel = some (ms, cnt)) :
    processImage B cap sel st img = some
      { dataBuffer := X1 ++ [pv] ++ [(⟨img, B.detect img,
          B.descKeypoints (B.detect img) img, ms⟩ : DataFrame Img Desc)],
        MatchedKeypoints := cnt,
        MatchedKeypoints_vector := st.MatchedKeypoints_vector ++ [cnt] } := by
  simp only [processImage, hpush, setCurrent_append_singleton, current_append_singleton,
    previous_append_pair, hmd]
  simp

theorem processImage_inv {Img Desc : Type} (B : Backend Img Desc) (cap : Nat)
    (hcap : 1 ≤ cap) (sel : SelectorType) (hm : MatcherObeysInterface B.matcher)
    (hd : DescriptorsAligned B) (st : PipelineState Img Desc) (done : List Img)
    (inv : PipelineInv B cap st done) (img : Img) :
    ∃ st1, processImage B cap sel st img = some st1
      ∧ PipelineInv B cap st1 (done ++ [img]) := by
  have hpush := ringPush_eq_drop cap hcap st.dataBuffer inv.len_le
    { cameraImg := img, keypoints := [], descriptors := [], kptMatches := [] }
  have hlen := inv.len_le
  have hk : st.dataBuffer.length + 1 - cap ≤ st.dataBuffer.length := by omega
  rw [List.drop_append_of_le_length hk] at hpush
  have hXlen : (st.dataBuffer.drop (st.dataBuffer.length + 1 - cap)).length + 1 ≤ cap := by
    rw [List.length_drop]
    omega
  have hXmem : ∀ f ∈ st.dataBuffer.drop (st.dataBuffer.length + 1 - cap),
      f ∈ st.dataBuffer := fun f hf => List.mem_of_mem_drop hf
  have hsplit := List.take_append_drop (st.dataBuffer.length + 1 - cap) st.dataBuffer
  generalize hX : st.dataBuffer.drop (st.dataBuffer.length + 1 - cap) = X
    at hpush hXlen hXmem hsplit
  have hvlen := inv.vlen
  rcases List.eq_nil_or_concat' X with hnil | ⟨X1, pv, hcat⟩
  · subst hnil
    refine ⟨_, processImage_first B cap sel st img hpush, ?_⟩
    refine ⟨by simpa using hcap, ?_, ?_, ?_, ?_, ?_, ?_⟩
    · intro f hf
      simp only [List.mem_singleton] at hf
      subst hf
      exact hd _ _
    · intro h
      simp at h
    · intro d img1 hdi
      obtain ⟨_, himg⟩ := List.append_inj' hdi rfl
      have himg1 : img = img1 := by simpa using himg
      subst himg1
      exact ⟨[], _, rfl, rfl⟩
    · simp [hvlen]
    · intro c hc
      by_cases hv : st.MatchedKeypoints_vector = []
      · rw [hv] at hc
        simp at hc
        exact hc.symm
      · have h0 : 0 < st.MatchedKeypoints_vector.length := List.length_pos.mpr hv
        rw [List.getElem?_append_left h0] at hc
        exact inv.first c hc
    · intro i c img1 hi hc hdone
      by_cases hlt : i < st.MatchedKeypoints_vector.length
      · rw [List.getElem?_append_left hlt] at hc
        rw [List.getElem?_append_left (by omega)] at hdone
        exact inv.bound i c img1 hi hc hdone
      · have hi1 : i = st.MatchedKeypoints_vector.length := by
          have := List.getElem?_eq_some.mp hc
          obtain ⟨hb, _⟩ := this
          simp only [List.length_append, List.length_singleton] at hb
          omega
        rw [hi1, List.getElem?_append_right (le_refl _)] at hc
        simp at hc
        subst hc
        exact Int.natCast_nonneg _
  · subst hcat
    have hpvmem : pv ∈ st.dataBuffer := hXmem pv (by simp)
    have hne : st.dataBuffer ≠ [] := List.ne_nil_of_mem hpvmem
    have hdone : done ≠ [] := fun h => hne (inv.empty h)
    obtain ⟨ms, cnt, hmd, hcnt⟩ := matchDescriptors_count_le B.matcher hm pv.keypoints
      (B.detect img) pv.descriptors (B.descKeypoints (B.detect img) img) sel
    refine ⟨_, processImage_next B cap sel st img X1 pv ms cnt hpush hmd, ?_⟩
    rcases List.eq_nil_or_concat' done with hdn | ⟨d, lastImg, hdcat⟩
    · exact absurd hdn hdone
    obtain ⟨Y, f, hbuf, hfk⟩ := inv.last d lastImg hdcat
    have hpvf : pv = f := by
      have h1 : (List.take (st.dataBuffer.length + 1 - cap) st.dataBuffer ++ X1) ++ [pv]
          = Y ++ [f] := by
        rw [List.append_assoc, hsplit, hbuf]
      have h2 := (List.append_inj' h1 rfl).2
      simpa using h2
    have hpvk : pv.keypoints = B.detect lastImg := by rw [hpvf, hfk]
    have hpva : pv.descriptors.length = pv.keypoints.length := inv.aligned pv hpvmem
    refine ⟨?_, ?_, ?_, ?_, ?_, ?_, ?_⟩
    · simpa using hXlen
    · intro f1 hf1
      rcases List.mem_append.mp hf1 with h | h
      · exact inv.aligned f1 (hXmem f1 h)
      · simp only [List.mem_singleton] at h
        subst h
        exact hd _ _
    · intro h
      simp at h
    · intro d1 img1 hdi
      obtain ⟨_, himg⟩ := List.append_inj' hdi rfl
      have himg1 : img = img1 := by simpa using himg
      subst himg1
      exact ⟨_, _, rfl, rfl⟩
    · simp [hvlen]
    · intro c hc
      have h0 : 0 < st.MatchedKeypoints_vector.length := by
        rw [hvlen]
        exact List.length_pos.mpr hdone
      rw [List.getElem?_append_left h0] at hc
      exact inv.first c hc
    · intro i c img1 hi hc hdone1
      by_cases hlt : i < st.MatchedKeypoints_vector.length
      · rw [List.getElem?_append_left hlt] at hc
        rw [List.getElem?_append_left (by omega)] at hdone1
        exact inv.bound i c img1 hi hc hdone1
      · have hi1 : i = st.MatchedKeypoints_vector.length := by
          have := List.getElem?_eq_some.mp hc
          obtain ⟨hb, _⟩ := this
          simp only [List.length_append, List.length_singleton] at hb
          omega
        rw [hi1, List.getElem?_append_right (le_refl _)] at hc
        simp at hc
        subst hc
        have hidx : i - 1 = d.length := by
          rw [hi1, hvlen, hdcat]
          simp
        rw [hidx, hdcat, List.append_assoc,
          List.getElem?_append_right (le_refl _)] at hdone1
        simp at hdone1
        subst hdone1
        rw [← hpvk, ← hpva]
        exact hcnt

theorem foldlM_processImage_inv {Img Desc : Type} (B : Backend Img Desc) (cap : Nat)
    (hcap : 1 ≤ cap) (sel : SelectorType) (hm : MatcherObeysInterface B.matcher)
    (hd : DescriptorsAligned B) (imgs : List Img) (st : PipelineState Img Desc)
    (done : List Img) (inv : PipelineInv B cap st done) :
    ∃ st1, imgs.foldlM (processImage B cap sel) st = some st1
      ∧ PipelineInv B cap st1 (done ++ imgs) := by
  induction imgs generalizing st done with
  | nil => exact ⟨st, rfl, by simpa using inv⟩
  | cons img rest ih =>
    obtain ⟨st1, hstep, hinv1⟩ := processImage_inv B cap hcap sel hm hd st done inv img
    obtain ⟨st2, hrun, hinv2⟩ := ih st1 (done ++ [img]) hinv1
    refine ⟨st2, ?_, by simpa using hinv2⟩
    rw [List.foldlM_cons, hstep]
    exact hrun

theorem sampleBackend_obeys :
    MatcherObeysInterface sampleBackend.matcher ∧ DescriptorsAligned sampleBackend := by
  refine ⟨⟨?_, ?_⟩, ?_⟩
  · intro a b
    simp [sampleBackend]
  · intro a b
    refine ⟨by simp [sampleBackend], ?_⟩
    intro e he
    simp only [sampleBackend, List.mem_map] at he
    obtain ⟨q, _, rfl⟩ := he
    rfl
  · intro kps img
    simp [sampleBackend]

/-- C5 as stated fails. With a first frame of three keypoints and a second frame of two,
a matcher that obeys its interface gives three matches for frame 1 in both selector
modes: more than `min 3 2`, the smaller of the two keypoint counts. -/
theorem match_count_exceeds_current_keypoints :
    MatcherObeysInterface sampleBackend.matcher
      ∧ DescriptorsAligned sampleBackend
      ∧ (sampleBackend.detect 3).length = 3
      ∧ (sampleBackend.detect 2).length = 2
      ∧ (runPipeline sampleBackend 2 SelectorType.SEL_KNN 0 [3, 2]).map
          (fun st => st.MatchedKeypoints_vector) = some [0, 3]
      ∧ (runPipeline sampleBackend 2 SelectorType.SEL_NN 0 [3, 2]).map
          (fun st => st.MatchedKeypoints_vector) = some [0, 3]
      ∧ ¬ ((3 : Int) ≤ min 3 2) := by
  have hpush1 : ringPush 2 ([] : List (DataFrame Nat Unit))
      { cameraImg := 3, keypoints := [], descriptors := [], kptMatches := [] }
      = some [{ cameraImg := 3, keypoints := [], descriptors := [], kptMatches := [] }] := rfl
  have hpush2 : ringPush 2
      [(⟨3, sampleBackend.detect 3, sampleBackend.descKeypoints (sampleBackend.detect 3) 3,
        []⟩ : DataFrame Nat Unit)]
      { cameraImg := 2, keypoints := [], descriptors := [], kptMatches := [] }
      = some ([] ++ [(⟨3, sampleBackend.detect 3,
            sampleBackend.descKeypoints (sampleBackend.detect 3) 3, []⟩ : DataFrame Nat Unit)]
          ++ [{ cameraImg := 2, keypoints := [], descriptors := [], kptMatches := [] }]) := rfl
  have hknn : matchDescriptors sampleBackend.matcher (sampleBackend.detect 3)
      (sampleBackend.detect 2) (sampleBackend.descKeypoints (sampleBackend.detect 3) 3)
      (sampleBackend.descKeypoints (sampleBackend.detect 2) 2) [] SelectorType.SEL_KNN
      = some ([⟨0, 0, 0, 1⟩, ⟨1, 0, 0, 1⟩, ⟨2, 0, 0, 1⟩], 3) := by
    norm_num [matchDescriptors, ratioLoop, minDescDistRatio, toInt32, sampleBackend,
      List.range_succ]
  have hnn : matchDescriptors sampleBackend.matcher (sampleBackend.detect 3)
      (sampleBackend.detect 2) (sampleBackend.descKeypoints (sampleBackend.detect 3) 3)
      (sampleBackend.descKeypoints (sampleBackend.detect 2) 2) [] SelectorType.SEL_NN
      = some ([⟨0, 0, 0, 1⟩, ⟨1, 0, 0, 1⟩, ⟨2, 0, 0, 1⟩], 3) := by
    norm_num [matchDescriptors, toInt32, sampleBackend, List.range_succ]
  refine ⟨sampleBackend_obeys.1, sampleBackend_obeys.2, by simp [sampleBackend],
    by simp [sampleBackend], ?_, ?_, by decide⟩
  · unfold runPipeline
    rw [List.foldlM_cons, processImage_first sampleBackend 2 _ _ 3 hpush1]
    simp only [Option.bind_eq_bind, Option.some_bind]
    rw [List.foldlM_cons, processImage_next sampleBackend 2 _ _ 2 [] _ _ 3 hpush2 hknn]
    simp
  · unfold runPipeline
    rw [List.foldlM_cons, processImage_first sampleBackend 2 _ _ 3 hpush1]
    simp only [Option.bind_eq_bind, Option.some_bind]
    rw [List.foldlM_cons, processImage_next sampleBackend 2 _ _ 2 [] _ _ 3 hpush2 hnn]
    simp

/-- C5, amended. For a buffer capacity of at least one, either selector mode, a matcher
and a descriptor extractor that obey their interfaces, and any sequence of images, the
loop of `main` ends and records one match count per image; the count of frame 0 is `0`
and the count of every frame of index `i ≥ 1` is at most the number of keypoints of
frame `i - 1`. -/
theorem match_count_contract {Img Desc : Type} (B : Backend Img Desc) (cap : Nat)
    (hcap : 1 ≤ cap) (sel : SelectorType) (uninit : Int) (imgs : List Img)
    (hm : MatcherObeysInterface B.matcher) (hd : DescriptorsAligned B) :
    ∃ st, runPipeline B cap sel uninit imgs = some st
      ∧ st.MatchedKeypoints_vector.length = imgs.length
      ∧ (∀ c, st.MatchedKeypoints_vector[0]? = some c → c = 0)
      ∧ ∀ i c img, 1 ≤ i → st.MatchedKeypoints_vector[i]? = some c →
          imgs[i - 1]? = some img → c ≤ ((B.detect img).length : Int) := by
  have inv0 : PipelineInv B cap
      { dataBuffer := [], MatchedKeypoints := uninit, MatchedKeypoints_vector := [] } [] :=
    ⟨by simp, by simp, fun _ => rfl, by simp, rfl, by simp, by simp⟩
  obtain ⟨st, hrun, hinv⟩ := foldlM_processImage_inv B cap hcap sel hm hd imgs _ [] inv0
  rw [List.nil_append] at hinv
  exact ⟨st, hrun, hinv.vlen, hinv.first, hinv.bound⟩

/-- C5, amended, on an instance: frames of three, two and four keypoints with the
buffer of two frames and the k-NN selector. -/
theorem match_count_contract_witness :
    ∃ st, runPipeline sampleBackend 2 SelectorType.SEL_KNN 0 [3, 2, 4] = some st
      ∧ st.MatchedKeypoints_vector.length = [3, 2, 4].length
      ∧ (∀ c, st.MatchedKeypoints_vector[0]? = some c → c = 0)
      ∧ ∀ i c img, 1 ≤ i → st.MatchedKeypoints_vector[i]? = some c →
          [3, 2, 4][i - 1]? = some img → c ≤ ((sampleBackend.detect img).length : Int) :=
  match_count_contract sampleBackend 2 (by decide) SelectorType.SEL_KNN 0 [3, 2, 4]
    sampleBackend_obeys.1 sampleBackend_obeys.2

/-! ## Candidate synthesis -/

theorem foldl_scanCell_eq_foldl_candidates (overlap : KeyPoint → KeyPoint → ℚ) (maxOv : ℚ)
    (minResp aperture : Int) (dstNorm : Mat) (cells : List (Nat × Nat))
    (keypoints : List KeyPoint) :
    cells.foldl (fun acc c => scanCell overlap maxOv minResp aperture dstNorm c.1 c.2 acc)
        keypoints
      = ((cells.filter fun c =>
            decide (minResp < staticCastInt (dstNorm.atFloat c.1 c.2))).map
          fun c => newKeypointAt aperture c.1 c.2 (staticCastInt (dstNorm.atFloat c.1 c.2))).foldl
        (fun acc kp => suppressStep overlap maxOv kp acc) keypoints := by
  induction cells generalizing keypoints with
  | nil => rfl
  | cons c rest ih =>
    by_cases hc : minResp < staticCastInt (dstNorm.atFloat c.1 c.2)
    · have hcell : scanCell overlap maxOv minResp aperture dstNorm c.1 c.2 keypoints
          = suppressStep overlap maxOv
              (newKeypointAt aperture c.1 c.2 (staticCastInt (dstNorm.atFloat c.1 c.2)))
              keypoints := by
        simp [scanCell, hc]
      have hdec : decide (minResp < staticCastInt (dstNorm.atFloat c.1 c.2)) = true := by
        simpa using hc
      rw [List.foldl_cons, hcell, ih, List.filter_cons, if_pos hdec, List.map_cons,
        List.foldl_cons]
    · have hcell : scanCell overlap maxOv minResp aperture dstNorm c.1 c.2 keypoints
          = keypoints := by
        simp [scanCell, hc]
      have hdec : ¬ decide (minResp < staticCastInt (dstNorm.atFloat c.1 c.2)) = true := by
        simpa using hc
      rw [List.foldl_cons, hcell, ih, List.filter_cons, if_neg hdec]

theorem pairwise_sprod_lex (l1 l2 : List Nat) (h1 : l1.Pairwise (· < ·))
    (h2 : l2.Pairwise (· < ·)) :
    (l1 ×ˢ l2).Pairwise fun c d => c.1 < d.1 ∨ (c.1 = d.1 ∧ c.2 < d.2) := by
  induction l1 with
  | nil => simp
  | cons a rest ih =>
    have ha := List.pairwise_cons.mp h1
    rw [List.product_cons, List.pairwise_append]
    refine ⟨?_, ih ha.2, ?_⟩
    · rw [List.pairwise_map]
      exact h2.imp fun h => Or.inr ⟨rfl, h⟩
    · intro x hx y hy
      obtain ⟨b, _, rfl⟩ := List.mem_map.mp hx
      have hy1 : y.1 ∈ rest := (List.mem_product.mp hy).1
      exact Or.inl (ha.1 y.1 hy1)

theorem rasterCells_pairwise (dstNorm : Mat) :
    (rasterCells dstNorm).Pairwise fun c d => c.1 < d.1 ∨ (c.1 = d.1 ∧ c.2 < d.2) :=
  pairwise_sprod_lex _ _ (List.pairwise_lt_range _) (List.pairwise_lt_range _)

theorem foldl_suppressStep_of_no_collision (overlap : KeyPoint → KeyPoint → ℚ) (maxOv : ℚ)
    (h : ∀ a b, overlap a b ≤ maxOv) (cands keypoints : List KeyPoint) :
    cands.foldl (fun acc kp => suppressStep overlap maxOv kp acc) keypoints
      = keypoints ++ cands := by
  induction cands generalizing keypoints with
  | nil => simp
  | cons kp rest ih =>
    rw [List.foldl_cons, suppressStep_of_no_collision overlap maxOv kp keypoints
      (fun it _ => not_lt.mpr (h kp it)), ih]
    simp

theorem staticCastInt_gt_iff (m : Int) (hm : 0 ≤ m) (v : ℚ) :
    m < staticCastInt v ↔ (m : ℚ) + 1 ≤ v := by
  unfold staticCastInt
  by_cases h0 : 0 ≤ v
  · rw [if_pos h0]
    constructor
    · intro h
      have h1 : m + 1 ≤ ⌊v⌋ := by omega
      have h2 : ((m + 1 : Int) : ℚ) ≤ v := Int.le_floor.mp h1
      push_cast at h2
      exact h2
    · intro h
      have h2 : ((m + 1 : Int) : ℚ) ≤ v := by
        push_cast
        exact h
      have h1 : m + 1 ≤ ⌊v⌋ := Int.le_floor.mpr h2
      omega
  · rw [if_neg h0]
    have hv : v < 0 := not_le.mp h0
    have hmq : (0 : ℚ) ≤ (m : ℚ) := by exact_mod_cast hm
    constructor
    · intro h
      have h1 : (0 : Int) ≤ ⌊-v⌋ := Int.floor_nonneg.mpr (by linarith)
      omega
    · intro h
      linarith

/-- C11 as stated fails. A cell scoring `100.5` exceeds the threshold `100`, yet the scan
builds no candidate for it and returns no keypoint; a cell scoring `150.75` gives a
keypoint of response `150`, not `150.75`. -/
theorem fractional_score_not_synthesized :
    scoreJustAbove.atFloat 0 0 = 201 / 2
      ∧ (minResponse : ℚ) < scoreJustAbove.atFloat 0 0
      ∧ detKeypointsHarris overlapSign scoreJustAbove [] = []
      ∧ scoreFractional.atFloat 0 0 = 603 / 4
      ∧ detKeypointsHarris overlapSign scoreFractional [] = [newKeypointAt 6 0 0 150]
      ∧ (newKeypointAt 6 0 0 150).response ≠ scoreFractional.atFloat 0 0 := by
  refine ⟨?_, ?_, ?_, ?_, ?_, ?_⟩
  · simp [scoreJustAbove, Mat.ofRows]
  · norm_num [scoreJustAbove, Mat.ofRows, minResponse]
  · norm_num [detKeypointsHarris, harrisScan, scanCell, staticCastInt, scoreJustAbove,
      Mat.ofRows, List.range_succ, minResponse]
  · simp [scoreFractional, Mat.ofRows]
  · norm_num [detKeypointsHarris, harrisScan, scanCell, suppressStep, overlapLoop,
      staticCastInt, scoreFractional, Mat.ofRows, List.range_succ, minResponse,
      scaledApertureSize, apertureSize]
  · norm_num [newKeypointAt, scoreFractional, Mat.ofRows]

/-- C11, amended. The scan is the suppression step folded over the candidate list, from
the first candidate to the last. The candidates are exactly the keypoints of the cells
whose score, truncated toward zero, exceeds the threshold (for a threshold `m ≥ 0`: the
cells scoring at least `m + 1`); the candidate of a cell is located at the cell
(`x` the column, `y` the row), has the aperture as size and the truncated score as
response; the candidates come in row-major order. When no two keypoints overlap by more
than `maxOverlap`, the scan appends exactly the candidate list. -/
theorem candidate_synthesis (overlap : KeyPoint → KeyPoint → ℚ) (maxOv : ℚ)
    (minResp aperture : Int) (dstNorm : Mat) (keypoints : List KeyPoint) :
    harrisScan overlap maxOv minResp aperture dstNorm keypoints
        = (candidates minResp aperture dstNorm).foldl
            (fun acc kp => suppressStep overlap maxOv kp acc) keypoints
      ∧ (∀ kp, kp ∈ candidates minResp aperture dstNorm ↔
          ∃ i j, i < dstNorm.rows ∧ j < dstNorm.cols
            ∧ minResp < staticCastInt (dstNorm.atFloat i j)
            ∧ kp = newKeypointAt aperture i j (staticCastInt (dstNorm.atFloat i j)))
      ∧ (0 ≤ minResp → ∀ i j,
          (minResp < staticCastInt (dstNorm.atFloat i j)
            ↔ (minResp : ℚ) + 1 ≤ dstNorm.atFloat i j))
      ∧ (∀ (i j : Nat) (r : Int),
          (newKeypointAt aperture i j r).pt = ⟨(j : ℚ), (i : ℚ)⟩
            ∧ (newKeypointAt aperture i j r).size = (aperture : ℚ)
            ∧ (newKeypointAt aperture i j r).response = (r : ℚ))
      ∧ (candidates minResp aperture dstNorm).Pairwise (fun a b => rasterBefore a.pt b.pt)
      ∧ ((∀ a b, overlap a b ≤ maxOv) →
          harrisScan overlap maxOv minResp aperture dstNorm keypoints
            = keypoints ++ candidates minResp aperture dstNorm) := by
  have hscan : harrisScan overlap maxOv minResp aperture dstNorm keypoints
      = (candidates minResp aperture dstNorm).foldl
          (fun acc kp => suppressStep overlap maxOv kp acc) keypoints := by
    rw [harrisScan_eq_foldl_cells, foldl_scanCell_eq_foldl_candidates]
    rfl
  refine ⟨hscan, ?_, ?_, ?_, ?_, ?_⟩
  · intro kp
    simp only [candidates, List.mem_map, List.mem_filter, decide_eq_true_eq]
    constructor
    · rintro ⟨c, ⟨hc, hP⟩, rfl⟩
      have hb := (mem_rasterCells dstNorm c.1 c.2).mp hc
      exact ⟨c.1, c.2, hb.1, hb.2, hP, rfl⟩
    · rintro ⟨i, j, hi, hj, hP, rfl⟩
      exact ⟨(i, j), ⟨(mem_rasterCells dstNorm i j).mpr ⟨hi, hj⟩, hP⟩, rfl⟩
  · intro hm i j
    exact staticCastInt_gt_iff minResp hm _
  · intro i j r
    exact ⟨rfl, rfl, rfl⟩
  · unfold candidates
    rw [List.pairwise_map]
    refine ((rasterCells_pairwise dstNorm).filter _).imp ?_
    intro c d hcd
    rcases hcd with h | ⟨h1, h2⟩
    · left
      simp only [newKeypointAt]
      exact_mod_cast h
    · right
      simp only [newKeypointAt]
      exact ⟨by exact_mod_cast h1, by exact_mod_cast h2⟩
  · intro hno
    rw [hscan, foldl_suppressStep_of_no_collision overlap maxOv hno]

/-- C11, amended, on `scoreMixed` with the constants of `detKeypointsHarris`: the cells
scoring `100.5` and `99` give no candidate; the cells scoring `101.25` and `150` give the
candidates of responses `101` and `150`, in raster order. -/
theorem candidate_synthesis_witness :
    candidates minResponse scaledApertureSize scoreMixed
        = [newKeypointAt 6 0 1 101, newKeypointAt 6 1 0 150]
      ∧ harrisScan overlapNone maxOverlap minResponse scaledApertureSize scoreMixed []
        = [newKeypointAt 6 0 1 101, newKeypointAt 6 1 0 150]
      ∧ (minResponse < staticCastInt (scoreMixed.atFloat 0 0)
          ↔ (minResponse : ℚ) + 1 ≤ scoreMixed.atFloat 0 0) := by
  have hcells : rasterCells scoreMixed = [(0, 0), (0, 1), (1, 0), (1, 1)] := by decide
  have hcand : candidates minResponse scaledApertureSize scoreMixed
      = [newKeypointAt 6 0 1 101, newKeypointAt 6 1 0 150] := by
    unfold candidates
    rw [hcells]
    norm_num [List.filter, staticCastInt, scoreMixed, Mat.ofRows, minResponse,
      scaledApertureSize, apertureSize]
  have h := candidate_synthesis overlapNone maxOverlap minResponse scaledApertureSize
    scoreMixed []
  refine ⟨hcand, ?_, h.2.2.1 (by decide) 0 0⟩
  rw [h.2.2.2.2.2 (fun _ _ => by simp [overlapNone, maxOverlap]), hcand]
  rfl

end Tracking2D
